import Mathlib

/-!
Verification of the asynchronous enrichment pipeline, the retry
orchestrator and the word-frequency top-K selector of the book backend.

The definitions below are shallow embeddings of the TypeScript source:

* `retryLoop` / `retryWithBackoff` embed `retryWithBackoff` from
  `src/utils/retry` (the loop `for attempt = 1..maxRetries`, catching the
  error, throwing the last error on the final attempt, computing
  `min(initialDelay * backoffMultiplier^(attempt-1), maxDelay)` and
  invoking the optional `onRetry(attempt, error)` callback before
  sleeping).  The asynchronous operation is modelled as a function from
  the attempt number (1-indexed) to `Except ε α`; delays are recorded in
  a trace instead of being slept, and JS numbers are modelled as `ℚ`.
* `processBookForML` / `reprocessFailedBooks` embed the same-named
  methods of `BookService` (`src/books/book.service`), with the MongoDB
  collection modelled as an association list keyed by `_id`, the two
  `updateOne` payloads as `WriteOp`s (Mongoose treats the non-operator
  keys as `$set`, and `$unset: { mlError: 1 }` clears the field), and
  the external `mlService.embedBook` / `mlService.addToIndex` calls as
  per-attempt outcome functions.  Every persistence and every external
  attempt is recorded in an event trace.
* `tokenize`, `analyzePage`, `getTopWords`, `getTopWordsHeap` and the
  `MinHeap` operations `bubbleUp`, `bubbleDown`, `heapPush`, `heapPop`
  embed `src/utils/tokenizer` and `src/analytics/wordFrequency`.  The
  module-global `Map` is passed explicitly as an association list in
  insertion order; `Array.prototype.sort` with comparator
  `(a, b) => b[1] - a[1]` (stable per ES2019) is modelled by the stable
  `List.insertionSort` under the relation `cntGE`.
-/

namespace BookBackend

/-! ## Retry orchestrator (src/utils/retry, `retryWithBackoff`) -/

/-- Retry configuration as destructured at the top of `retryWithBackoff`:
`maxRetries` (default `config.ml.retries`), `initialDelay`
(default `config.ml.retryDelay`), `maxDelay` (default 30000) and
`backoffMultiplier` (default 2).  Numeric values are modelled as `ℚ`. -/
structure RetryPolicy where
  maxRetries : ℕ
  initialDelay : ℚ
  maxDelay : ℚ
  backoffMultiplier : ℚ
deriving DecidableEq

/-- Observable outcome of a `retryWithBackoff` run: the returned value or
thrown error, the number of times the operation was invoked, the backoff
delays slept (in order), and the `onRetry (attempt, error)` invocations.
The error side is an `Option` because with `maxRetries = 0` the JS code
falls through the loop and throws the still-undefined `lastError`;
`.error none` models that (unreachable for `maxRetries ≥ 1`). -/
structure RetryResult (ε α : Type) where
  result : Except (Option ε) α
  attemptsMade : ℕ
  delays : List ℚ
  retryCalls : List (ℕ × ε)

/-- The backoff delay computed after a failed attempt `i` (1-indexed):
`Math.min(initialDelay * Math.pow(backoffMultiplier, attempt - 1), maxDelay)`. -/
def delayAt (p : RetryPolicy) (i : ℕ) : ℚ :=
  min (p.initialDelay * p.backoffMultiplier ^ (i - 1)) p.maxDelay

/-- The body of the `for (let attempt = 1; attempt <= maxRetries; attempt++)`
loop of `retryWithBackoff`, from iteration `attempt` on.  `last` is the
current value of `lastError`. -/
def retryLoop (op : ℕ → Except ε α) (p : RetryPolicy) (attempt : ℕ)
    (last : Option ε) : RetryResult ε α :=
  if p.maxRetries < attempt then
    -- loop exhausted: `throw lastError` after the loop
    ⟨.error last, 0, [], []⟩
  else
    match op attempt with
    | .ok v => ⟨.ok v, 1, [], []⟩
    | .error e =>
      if attempt = p.maxRetries then
        -- `if (attempt === maxRetries) throw lastError`
        ⟨.error (some e), 1, [], []⟩
      else
        let r := retryLoop op p (attempt + 1) (some e)
        ⟨r.result, r.attemptsMade + 1, delayAt p attempt :: r.delays,
          (attempt, e) :: r.retryCalls⟩
termination_by p.maxRetries + 1 - attempt
decreasing_by omega

/-- Embedding of `retryWithBackoff(fn, options)`. -/
def retryWithBackoff (op : ℕ → Except ε α) (p : RetryPolicy) : RetryResult ε α :=
  retryLoop op p 1 none

/-- If every attempt fails, each remaining loop iteration fails and the
final iteration rethrows the last attempt error. -/
lemma retryLoop_always_fail (op : ℕ → Except ε α) (e : ℕ → ε) (p : RetryPolicy)
    (hop : ∀ i, op i = .error (e i)) :
    ∀ (k a : ℕ), p.maxRetries - a = k → 1 ≤ a → a ≤ p.maxRetries → ∀ last,
      (retryLoop op p a last).result = .error (some (e p.maxRetries)) ∧
      (retryLoop op p a last).attemptsMade = p.maxRetries + 1 - a := by
  intro k
  induction k with
  | zero =>
    intro a hk h1 hle last
    have ha : a = p.maxRetries := by omega
    rw [retryLoop]
    simp only [hop a]
    rw [if_neg (by omega), if_pos ha, ha]
    exact ⟨rfl, by simp⟩
  | succ n ih =>
    intro a hk h1 hle last
    rw [retryLoop]
    simp only [hop a]
    rw [if_neg (by omega), if_neg (by omega)]
    have := ih (a + 1) (by omega) (by omega) (by omega) (some (e a))
    exact ⟨this.1, by simp only [this.2]; omega⟩

/-- C3: for every operation that fails on every attempt and every policy
with `maxRetries = N ≥ 1`, `retryWithBackoff` invokes the operation
exactly N times and rejects with exactly the error value thrown by the
Nth attempt, unwrapped. -/
theorem retryWithBackoff_always_fail (op : ℕ → Except ε α) (e : ℕ → ε)
    (p : RetryPolicy) (hN : 1 ≤ p.maxRetries) (hop : ∀ i, op i = .error (e i)) :
    (retryWithBackoff op p).result = .error (some (e p.maxRetries)) ∧
    (retryWithBackoff op p).attemptsMade = p.maxRetries := by
  have := retryLoop_always_fail op e p hop (p.maxRetries - 1) 1 (by omega) le_rfl hN none
  exact ⟨this.1, by rw [retryWithBackoff, this.2]; omega⟩

theorem retryWithBackoff_always_fail_witness :
    (1 ≤ (⟨3, 1, 5, 2⟩ : RetryPolicy).maxRetries) ∧
    (retryWithBackoff (fun i => (.error i : Except ℕ ℕ)) ⟨3, 1, 5, 2⟩).result =
      .error (some 3) ∧
    (retryWithBackoff (fun i => (.error i : Except ℕ ℕ)) ⟨3, 1, 5, 2⟩).attemptsMade = 3 :=
  ⟨by decide,
    retryWithBackoff_always_fail (fun i => .error i) (fun i => i) ⟨3, 1, 5, 2⟩
      (by decide) (fun i => rfl)⟩

/-- If the operation fails on attempts `1..f` and succeeds on attempt
`f+1 ≤ maxRetries`, the loop from iteration `a ≤ f+1` returns the
success value, makes `f+2-a` attempts and sleeps the backoff delay after
each failed attempt `a, a+1, ..., f`. -/
lemma retryLoop_eventual_success (op : ℕ → Except ε α) (e : ℕ → ε) (v : α)
    (f : ℕ) (p : RetryPolicy)
    (hf : ∀ i, 1 ≤ i → i ≤ f → op i = .error (e i)) (hs : op (f + 1) = .ok v)
    (hN : f + 1 ≤ p.maxRetries) :
    ∀ (k a : ℕ), f + 1 - a = k → 1 ≤ a → a ≤ f + 1 → ∀ last,
      retryLoop op p a last =
        ⟨.ok v, f + 2 - a, (List.range' a (f + 1 - a)).map (delayAt p),
          (List.range' a (f + 1 - a)).map (fun i => (i, e i))⟩ := by
  intro k
  induction k with
  | zero =>
    intro a hk h1 hle last
    have ha : a = f + 1 := by omega
    subst ha
    rw [retryLoop]
    simp only [hs]
    rw [if_neg (by omega)]
    simp
  | succ n ih =>
    intro a hk h1 hle last
    have haf : a ≤ f := by omega
    rw [retryLoop]
    simp only [hf a h1 haf]
    rw [if_neg (by omega), if_neg (by omega)]
    rw [ih (a + 1) (by omega) (by omega) (by omega) (some (e a))]
    have hr : f + 1 - a = (f - a) + 1 := by omega
    have hr2 : f + 1 - (a + 1) = f - a := by omega
    rw [hr, hr2, List.range']
    simp only [List.map_cons]
    refine congrArg (RetryResult.mk (.ok v) · _ _) ?_
    omega

/-- C4: for an operation failing `f` times then succeeding, with
`maxRetries ≥ f+1`, nonnegative delays and multiplier > 1,
`retryWithBackoff` returns the success value after exactly `f+1`
invocations, performing exactly `f` backoff delays where the delay after
attempt `i` (1-indexed) is `min(initialDelay * multiplier^(i-1), maxDelay)`;
the delay sequence is non-decreasing and bounded by `maxDelay`. -/
theorem retryWithBackoff_eventual_success (op : ℕ → Except ε α) (e : ℕ → ε)
    (v : α) (f : ℕ) (p : RetryPolicy)
    (hf : ∀ i, 1 ≤ i → i ≤ f → op i = .error (e i)) (hs : op (f + 1) = .ok v)
    (hN : f + 1 ≤ p.maxRetries) (hd0 : 0 ≤ p.initialDelay)
    (_hmd : 0 ≤ p.maxDelay) (hmul : 1 < p.backoffMultiplier) :
    (retryWithBackoff op p).result = .ok v ∧
    (retryWithBackoff op p).attemptsMade = f + 1 ∧
    (retryWithBackoff op p).delays =
      (List.range f).map
        (fun i => min (p.initialDelay * p.backoffMultiplier ^ i) p.maxDelay) ∧
    (retryWithBackoff op p).delays.length = f ∧
    (retryWithBackoff op p).delays.Chain' (· ≤ ·) ∧
    ∀ d ∈ (retryWithBackoff op p).delays, d ≤ p.maxDelay := by
  have key := retryLoop_eventual_success op e v f p hf hs hN f 1 (by omega)
    le_rfl (by omega) none
  rw [retryWithBackoff, key]
  have hrange : List.range' 1 (f + 1 - 1) = (List.range f).map (1 + ·) := by
    rw [List.range'_eq_map_range]
    simp
  have hdel : (List.range' 1 (f + 1 - 1)).map (delayAt p) =
      (List.range f).map
        (fun i => min (p.initialDelay * p.backoffMultiplier ^ i) p.maxDelay) := by
    rw [hrange, List.map_map]
    refine List.map_congr_left fun i _ => ?_
    simp only [Function.comp, delayAt, Nat.add_sub_cancel_left]
  refine ⟨rfl, by simp, hdel, ?_, ?_, ?_⟩
  · rw [hdel]; simp
  · rw [hdel]
    refine List.Pairwise.chain' ?_
    rw [List.pairwise_map]
    refine (List.pairwise_lt_range f).imp fun {i j} hij => ?_
    exact min_le_min
      (mul_le_mul_of_nonneg_left (pow_le_pow_right₀ hmul.le hij.le) hd0) le_rfl
  · rw [hdel]
    intro d hd
    obtain ⟨i, _, rfl⟩ := List.mem_map.mp hd
    exact min_le_right _ _

theorem retryWithBackoff_eventual_success_witness :
    (∀ i, 1 ≤ i → i ≤ 2 →
      (fun j => if j ≤ 2 then (.error j : Except ℕ ℕ) else .ok 7) i = .error i) ∧
    (retryWithBackoff (fun j => if j ≤ 2 then (.error j : Except ℕ ℕ) else .ok 7)
      (⟨4, 1, 5, 2⟩ : RetryPolicy)).result = .ok 7 ∧
    (retryWithBackoff (fun j => if j ≤ 2 then (.error j : Except ℕ ℕ) else .ok 7)
      (⟨4, 1, 5, 2⟩ : RetryPolicy)).attemptsMade = 3 ∧
    (retryWithBackoff (fun j => if j ≤ 2 then (.error j : Except ℕ ℕ) else .ok 7)
      (⟨4, 1, 5, 2⟩ : RetryPolicy)).delays.Chain' (· ≤ ·) := by
  have h := retryWithBackoff_eventual_success
    (fun j => if j ≤ 2 then (.error j : Except ℕ ℕ) else .ok 7)
    (fun j => j) 7 2 ⟨4, 1, 5, 2⟩
    (fun i h1 h2 => by simp [h2]) (by norm_num) (by norm_num)
    (by norm_num) (by norm_num) (by norm_num)
  exact ⟨fun i h1 h2 => by simp [h2], h.1, h.2.1, h.2.2.2.2.1⟩

/-! ## Enrichment pipeline (src/books/book.service, `BookService`) -/

/-- A book document as persisted by `BookModel` (src/books/book.model):
the fields touched by the ML pipeline plus the metadata it reads.
`embedding` is a vector of JS numbers, modelled as `List ℚ`;
`mlProcessedAt` is a timestamp, modelled as `Option ℕ`. -/
structure Book where
  title : String
  author : String
  genre : Option String
  text : String
  embedding : Option (List ℚ)
  mlProcessed : Bool
  mlProcessedAt : Option ℕ
  mlError : Option String
deriving DecidableEq

/-- The MongoDB collection, modelled as an association list from `_id`
to document in natural (insertion) order. -/
abbrev Store := List (String × Book)

/-- Embedding of `BookModel.findById(id)`. -/
def findById (st : Store) (id : String) : Option Book :=
  (st.find? (fun e => e.1 == id)).map (fun e => e.2)

/-- The two `updateOne` payloads issued by `processBookForML`:
the step-2 update `{embedding, mlProcessed: true, mlProcessedAt: new Date(),
$unset: {mlError: 1}}` and the catch-block update
`{mlProcessed: false, mlError: error.message}`.  Mongoose treats the
non-operator keys as `$set`, so both are partial updates. -/
inductive WriteOp where
  | saveEmbedding (id : String) (emb : List ℚ) (time : ℕ)
  | markFailed (id : String) (msg : String)
deriving DecidableEq

/-- Embedding of `updateOne({_id: id}, ...)`: apply `f` to the first
document whose `_id` matches; matching nothing is a no-op. -/
def applyUpd (f : Book → Book) (id : String) : Store → Store
  | [] => []
  | e :: rest => if e.1 == id then (e.1, f e.2) :: rest else e :: applyUpd f id rest

/-- The document mutation of the step-2 update. -/
def saveFn (emb : List ℚ) (t : ℕ) (b : Book) : Book :=
  { b with
    embedding := some emb
    mlProcessed := true
    mlProcessedAt := some t
    mlError := none }

/-- The document mutation of the catch-block update. -/
def failFn (msg : String) (b : Book) : Book :=
  { b with mlProcessed := false, mlError := some msg }

def applyWrite (st : Store) : WriteOp → Store
  | .saveEmbedding id emb t => applyUpd (saveFn emb t) id st
  | .markFailed id msg => applyUpd (failFn msg) id st

/-- Observable events of one `processBookForML` run, in program order:
each external embed attempt, each external index attempt (with its
outcome), and each persisted update. -/
inductive Event where
  | embedAttempt (n : ℕ)
  | indexAttempt (n : ℕ) (ok : Bool)
  | write (w : WriteOp)
deriving DecidableEq

/-- Replay the persistence writes of an event-trace prefix against a
store, giving the stored state at that point of the run. -/
def applyEvents (st : Store) (evs : List Event) : Store :=
  evs.foldl (fun s ev => match ev with
    | .write w => applyWrite s w
    | _ => s) st

def isOkE : Except ε α → Bool
  | .ok _ => true
  | .error _ => false

/-- Outcome of one `processBookForML` run: the resolved/rejected promise
(modelled as `Except` over the thrown error message), the final store,
and the event trace. -/
structure RunResult where
  result : Except String Unit
  store : Store
  events : List Event

/-- The retry policy used by both external calls of `processBookForML`:
the explicit `{ maxRetries: 3 }` over the config-supplied defaults. -/
def pol3 (pol : RetryPolicy) : RetryPolicy := { pol with maxRetries := 3 }

/-- Embedding of `BookService.processBookForML(bookId)`.  `embedB` and
`indexB` give the outcome of each attempt (1-indexed) of
`mlService.embedBook` and `mlService.addToIndex`; both throw an `Error`
whose message is the `String` on failure.  `now` is the value of
`new Date()` at the step-2 update.  The unreachable `.error none` of
the retry result (only possible with `maxRetries = 0`) is mapped to the
empty message. -/
def processBookForML (embedB : ℕ → Except String (List ℚ))
    (indexB : ℕ → Except String Bool) (pol : RetryPolicy) (now : ℕ)
    (st : Store) (bookId : String) : RunResult :=
  match findById st bookId with
  | none =>
    -- `throw new Error(...)`, caught by the catch block, which issues the
    -- (matching-nothing) updateOne and rethrows
    let msg := "Book " ++ bookId ++ " not found"
    ⟨.error msg, applyWrite st (.markFailed bookId msg),
      [.write (.markFailed bookId msg)]⟩
  | some _book =>
    let er := retryWithBackoff embedB (pol3 pol)
    let embedEvs := (List.range er.attemptsMade).map (fun i => Event.embedAttempt (i + 1))
    match er.result with
    | .error e =>
      let msg := e.getD ""
      ⟨.error msg, applyWrite st (.markFailed bookId msg),
        embedEvs ++ [.write (.markFailed bookId msg)]⟩
    | .ok emb =>
      -- Step 2: save embedding, set mlProcessed and clear mlError
      let st1 := applyWrite st (.saveEmbedding bookId emb now)
      -- Step 3: add to search index with retry
      let ir := retryWithBackoff indexB (pol3 pol)
      let indexEvs := (List.range ir.attemptsMade).map
        (fun i => Event.indexAttempt (i + 1) (isOkE (indexB (i + 1))))
      match ir.result with
      | .ok _ =>
        ⟨.ok (), st1,
          embedEvs ++ [.write (.saveEmbedding bookId emb now)] ++ indexEvs⟩
      | .error e =>
        let msg := e.getD ""
        ⟨.error msg, applyWrite st1 (.markFailed bookId msg),
          embedEvs ++ [.write (.saveEmbedding bookId emb now)] ++ indexEvs
            ++ [.write (.markFailed bookId msg)]⟩

/-- Outcome of one `reprocessFailedBooks` run: `ret` is the function's
return value (`Promise<void>`), `store` the final store and `attempted`
the ids submitted to `processBookForML`, in order. -/
structure BatchResult where
  ret : Unit
  store : Store
  attempted : List String

/-- The filter of the recovery query
`find({ mlProcessed: false, mlError: { $exists: true } })`. -/
def isFailedDoc (e : String × Book) : Bool :=
  e.2.mlProcessed == false && e.2.mlError.isSome

/-- Embedding of `BookService.reprocessFailedBooks()`.  The query takes
the first 10 matching documents in natural order; each is resubmitted
through `processBookForML` with per-document attempt behaviours, and a
per-document failure is caught and logged, so the loop always continues. -/
def reprocessFailedBooks (embedB : String → ℕ → Except String (List ℚ))
    (indexB : String → ℕ → Except String Bool) (pol : RetryPolicy) (now : ℕ)
    (st : Store) : BatchResult :=
  let ids := ((st.filter isFailedDoc).take 10).map (fun e => e.1)
  ⟨(), ids.foldl
      (fun s id => (processBookForML (embedB id) (indexB id) pol now s id).store)
      st, ids⟩

lemma findById_cons (e : String × Book) (rest : Store) (id : String) :
    findById (e :: rest) id = if e.1 == id then some e.2 else findById rest id := by
  cases he : e.1 == id <;> simp [findById, List.find?_cons, he]

lemma applyUpd_cons (f : Book → Book) (id : String) (e : String × Book)
    (rest : Store) :
    applyUpd f id (e :: rest) =
      if e.1 == id then (e.1, f e.2) :: rest else e :: applyUpd f id rest := by
  rfl

/-- `updateOne` on the id that `findById` resolves updates exactly that
document. -/
lemma findById_applyUpd_self (f : Book → Book) (id : String) :
    ∀ (st : Store) (b : Book), findById st id = some b →
      findById (applyUpd f id st) id = some (f b) := by
  intro st
  induction st with
  | nil => intro b h; simp [findById] at h
  | cons e rest ih =>
    intro b h
    rw [findById_cons] at h
    rw [applyUpd_cons]
    by_cases he : (e.1 == id) = true
    · rw [if_pos he] at h
      rw [if_pos he, findById_cons, if_pos he]
      injection h with h
      rw [h]
    · rw [if_neg he] at h
      rw [if_neg he, findById_cons, if_neg he]
      exact ih b h

/-- `updateOne` on a different id leaves a document unchanged. -/
lemma findById_applyUpd_ne (f : Book → Book) (id jd : String) (h : id ≠ jd) :
    ∀ st : Store, findById (applyUpd f id st) jd = findById st jd := by
  intro st
  induction st with
  | nil => rfl
  | cons e rest ih =>
    rw [applyUpd_cons]
    by_cases he : (e.1 == id) = true
    · rw [if_pos he, findById_cons, findById_cons]
      have hjd : (e.1 == jd) = false := by
        have h1 : e.1 = id := by simpa using he
        simp [h1, h]
      simp [hjd]
    · rw [if_neg he, findById_cons, findById_cons, ih]

/-- `updateOne` against an absent id matches nothing and is a no-op. -/
lemma applyUpd_of_absent (f : Book → Book) (id : String) :
    ∀ st : Store, findById st id = none → applyUpd f id st = st := by
  intro st
  induction st with
  | nil => intro _; rfl
  | cons e rest ih =>
    intro h
    rw [findById_cons] at h
    rw [applyUpd_cons]
    by_cases he : (e.1 == id) = true
    · rw [if_pos he] at h; cases h
    · rw [if_neg he] at h
      rw [if_neg he, ih h]

/-- Replaying a trace that contains no writes leaves the store as is;
embed attempts are such a trace. -/
lemma applyEvents_embedAttempts (st : Store) (l : List ℕ) :
    applyEvents st (l.map (fun i => Event.embedAttempt (i + 1))) = st := by
  induction l generalizing st with
  | nil => rfl
  | cons x xs ih => simpa [applyEvents] using ih st

lemma applyEvents_append (st : Store) (l₁ l₂ : List Event) :
    applyEvents st (l₁ ++ l₂) = applyEvents (applyEvents st l₁) l₂ :=
  List.foldl_append ..

/-- A membership-stated store invariant is preserved by `applyUpd` when
the update function establishes it outright. -/
lemma applyUpd_forall (P : Book → Prop) (f : Book → Book) (id : String)
    (hf : ∀ b, P (f b)) :
    ∀ st : Store, (∀ e ∈ st, P e.2) → ∀ e ∈ applyUpd f id st, P e.2 := by
  intro st
  induction st with
  | nil => intro _ e he; cases he
  | cons a rest ih =>
    intro hst e he
    rw [applyUpd_cons] at he
    by_cases ha : (a.1 == id) = true
    · rw [if_pos ha] at he
      rcases List.mem_cons.mp he with rfl | hm
      · exact hf a.2
      · exact hst e (List.mem_cons_of_mem a hm)
    · rw [if_neg ha] at he
      rcases List.mem_cons.mp he with rfl | hm
      · exact hst _ (List.mem_cons_self _ _)
      · exact ih (fun x hx => hst x (List.mem_cons_of_mem a hx)) e hm

/-- The store invariant of interest: any processed document carries an
embedding. -/
def GoodStore (st : Store) : Prop :=
  ∀ e ∈ st, e.2.mlProcessed = true → e.2.embedding.isSome

lemma goodStore_applyWrite (st : Store) (w : WriteOp) (h : GoodStore st) :
    GoodStore (applyWrite st w) := by
  cases w with
  | saveEmbedding id emb t =>
    exact applyUpd_forall (fun b => b.mlProcessed = true → b.embedding.isSome)
      (saveFn emb t) id (fun b _ => Option.isSome_some) st h
  | markFailed id msg =>
    exact applyUpd_forall (fun b => b.mlProcessed = true → b.embedding.isSome)
      (failFn msg) id (fun b hb => absurd hb Bool.false_ne_true) st h

/-- The shape of the run when the document is absent. -/
lemma processBookForML_notFound_eq (embedB : ℕ → Except String (List ℚ))
    (indexB : ℕ → Except String Bool) (pol : RetryPolicy) (now : ℕ)
    (st : Store) (id : String) (h : findById st id = none) :
    processBookForML embedB indexB pol now st id =
      ⟨.error ("Book " ++ id ++ " not found"),
       applyWrite st (.markFailed id ("Book " ++ id ++ " not found")),
       [.write (.markFailed id ("Book " ++ id ++ " not found"))]⟩ := by
  simp only [processBookForML, h]

/-- The shape of the run when the embed retries are exhausted. -/
lemma processBookForML_embedFail_eq (embedB : ℕ → Except String (List ℚ))
    (indexB : ℕ → Except String Bool) (pol : RetryPolicy) (now : ℕ)
    (st : Store) (id : String) (bk : Book) (e : Option String)
    (hf : findById st id = some bk)
    (he : (retryWithBackoff embedB (pol3 pol)).result = .error e) :
    processBookForML embedB indexB pol now st id =
      ⟨.error (e.getD ""), applyWrite st (.markFailed id (e.getD "")),
       (List.range (retryWithBackoff embedB (pol3 pol)).attemptsMade).map
           (fun i => Event.embedAttempt (i + 1)) ++
         [.write (.markFailed id (e.getD ""))]⟩ := by
  simp only [processBookForML, hf, he]

/-- The shape of the run when both external calls eventually succeed. -/
lemma processBookForML_indexOk_eq (embedB : ℕ → Except String (List ℚ))
    (indexB : ℕ → Except String Bool) (pol : RetryPolicy) (now : ℕ)
    (st : Store) (id : String) (bk : Book) (emb : List ℚ) (u : Bool)
    (hf : findById st id = some bk)
    (he : (retryWithBackoff embedB (pol3 pol)).result = .ok emb)
    (hi : (retryWithBackoff indexB (pol3 pol)).result = .ok u) :
    processBookForML embedB indexB pol now st id =
      ⟨.ok (), applyWrite st (.saveEmbedding id emb now),
       (List.range (retryWithBackoff embedB (pol3 pol)).attemptsMade).map
           (fun i => Event.embedAttempt (i + 1)) ++
         [.write (.saveEmbedding id emb now)] ++
         (List.range (retryWithBackoff indexB (pol3 pol)).attemptsMade).map
           (fun i => Event.indexAttempt (i + 1) (isOkE (indexB (i + 1))))⟩ := by
  simp only [processBookForML, hf, he, hi]

/-- The shape of the run when embed succeeds but the index retries are
exhausted. -/
lemma processBookForML_indexFail_eq (embedB : ℕ → Except String (List ℚ))
    (indexB : ℕ → Except String Bool) (pol : RetryPolicy) (now : ℕ)
    (st : Store) (id : String) (bk : Book) (emb : List ℚ) (e : Option String)
    (hf : findById st id = some bk)
    (he : (retryWithBackoff embedB (pol3 pol)).result = .ok emb)
    (hi : (retryWithBackoff indexB (pol3 pol)).result = .error e) :
    processBookForML embedB indexB pol now st id =
      ⟨.error (e.getD ""),
       applyWrite (applyWrite st (.saveEmbedding id emb now))
         (.markFailed id (e.getD "")),
       (List.range (retryWithBackoff embedB (pol3 pol)).attemptsMade).map
           (fun i => Event.embedAttempt (i + 1)) ++
         [.write (.saveEmbedding id emb now)] ++
         (List.range (retryWithBackoff indexB (pol3 pol)).attemptsMade).map
           (fun i => Event.indexAttempt (i + 1) (isOkE (indexB (i + 1)))) ++
         [.write (.markFailed id (e.getD ""))]⟩ := by
  simp only [processBookForML, hf, he, hi]

lemma goodStore_processBookForML (embedB : ℕ → Except String (List ℚ))
    (indexB : ℕ → Except String Bool) (pol : RetryPolicy) (now : ℕ)
    (st : Store) (id : String) (h : GoodStore st) :
    GoodStore (processBookForML embedB indexB pol now st id).store := by
  cases hf : findById st id with
  | none =>
    rw [processBookForML_notFound_eq embedB indexB pol now st id hf]
    exact goodStore_applyWrite st
      (.markFailed id ("Book " ++ id ++ " not found")) h
  | some bk =>
    cases he : (retryWithBackoff embedB (pol3 pol)).result with
    | error e =>
      rw [processBookForML_embedFail_eq embedB indexB pol now st id bk e hf he]
      exact goodStore_applyWrite st (.markFailed id (e.getD "")) h
    | ok emb =>
      cases hi : (retryWithBackoff indexB (pol3 pol)).result with
      | ok u =>
        rw [processBookForML_indexOk_eq embedB indexB pol now st id bk emb u hf he hi]
        exact goodStore_applyWrite st (.saveEmbedding id emb now) h
      | error e =>
        rw [processBookForML_indexFail_eq embedB indexB pol now st id bk emb e hf he hi]
        exact goodStore_applyWrite _ (.markFailed id (e.getD ""))
          (goodStore_applyWrite st (.saveEmbedding id emb now) h)

/-- `processBookForML` only writes to its own document id. -/
lemma findById_processBookForML_ne (embedB : ℕ → Except String (List ℚ))
    (indexB : ℕ → Except String Bool) (pol : RetryPolicy) (now : ℕ)
    (st : Store) (id jd : String) (h : id ≠ jd) :
    findById (processBookForML embedB indexB pol now st id).store jd =
      findById st jd := by
  cases hf : findById st id with
  | none =>
    rw [processBookForML_notFound_eq embedB indexB pol now st id hf]
    exact findById_applyUpd_ne _ _ _ h st
  | some bk =>
    cases he : (retryWithBackoff embedB (pol3 pol)).result with
    | error e =>
      rw [processBookForML_embedFail_eq embedB indexB pol now st id bk e hf he]
      exact findById_applyUpd_ne _ _ _ h st
    | ok emb =>
      cases hi : (retryWithBackoff indexB (pol3 pol)).result with
      | ok u =>
        rw [processBookForML_indexOk_eq embedB indexB pol now st id bk emb u hf he hi]
        exact findById_applyUpd_ne _ _ _ h st
      | error e =>
        rw [processBookForML_indexFail_eq embedB indexB pol now st id bk emb e hf he hi]
        show findById (applyUpd (failFn (e.getD "")) id
          (applyUpd (saveFn emb now) id st)) jd = findById st jd
        rw [findById_applyUpd_ne _ _ _ h, findById_applyUpd_ne _ _ _ h]

/-- A resolved `findById` exhibits a member of the store. -/
lemma findById_mem (st : Store) (id : String) (b : Book)
    (h : findById st id = some b) : ∃ k, (k, b) ∈ st := by
  rw [findById] at h
  cases hfind : st.find? (fun e => e.1 == id) with
  | none => rw [hfind] at h; cases h
  | some e =>
    rw [hfind] at h
    injection h with h
    have hb : e.2 = b := h
    exact ⟨e.1, by
      have hm : (e.1, e.2) ∈ st := List.mem_of_find?_eq_some hfind
      rwa [hb] at hm⟩

lemma goodStore_foldl (embedB : String → ℕ → Except String (List ℚ))
    (indexB : String → ℕ → Except String Bool) (pol : RetryPolicy) (now : ℕ) :
    ∀ (ids : List String) (st : Store), GoodStore st →
      GoodStore (ids.foldl
        (fun s id => (processBookForML (embedB id) (indexB id) pol now s id).store)
        st) := by
  intro ids
  induction ids with
  | nil => intro st h; exact h
  | cons x xs ih =>
    intro st h
    exact ih _ (goodStore_processBookForML _ _ pol now st x h)

/-- Concrete fixtures used by counterexamples and witnesses. -/
def bk0 : Book := ⟨"T", "A", none, "alpha beta", none, false, none, none⟩

def st0 : Store := [("b1", bk0)]

def embedOk : ℕ → Except String (List ℚ) := fun _ => .ok [1, 2]

def indexOk : ℕ → Except String Bool := fun _ => .ok true

def indexFail : ℕ → Except String Bool := fun _ => .error "index down"

def polX : RetryPolicy := ⟨3, 1, 30000, 2⟩

/-- C9: for a documentId with no stored document, enqueue fails fast with
the NotFound error, surfacing it to the caller, without any embed or
index attempt, and leaves every stored document unchanged. -/
theorem processBookForML_notFound_spec (embedB : ℕ → Except String (List ℚ))
    (indexB : ℕ → Except String Bool) (pol : RetryPolicy) (now : ℕ)
    (st : Store) (id : String) (habs : findById st id = none) :
    (processBookForML embedB indexB pol now st id).result =
      .error ("Book " ++ id ++ " not found") ∧
    (processBookForML embedB indexB pol now st id).store = st ∧
    (∀ n, Event.embedAttempt n ∉
      (processBookForML embedB indexB pol now st id).events) ∧
    (∀ n ok, Event.indexAttempt n ok ∉
      (processBookForML embedB indexB pol now st id).events) := by
  rw [processBookForML_notFound_eq embedB indexB pol now st id habs]
  refine ⟨rfl, ?_, ?_, ?_⟩
  · show applyUpd (failFn ("Book " ++ id ++ " not found")) id st = st
    exact applyUpd_of_absent _ _ st habs
  · intro n hn
    simp at hn
  · intro n ok hn
    simp at hn

theorem processBookForML_notFound_witness :
    (processBookForML embedOk indexOk polX 0 [] "nope").result =
      .error ("Book " ++ "nope" ++ " not found") ∧
    (processBookForML embedOk indexOk polX 0 [] "nope").store = [] ∧
    (∀ n, Event.embedAttempt n ∉
      (processBookForML embedOk indexOk polX 0 [] "nope").events) ∧
    (∀ n ok, Event.indexAttempt n ok ∉
      (processBookForML embedOk indexOk polX 0 [] "nope").events) :=
  processBookForML_notFound_spec embedOk indexOk polX 0 [] "nope" rfl

/-- C7: if the embed step succeeds but every index attempt fails (so the
3-attempt budget is exhausted), the stored document keeps the embedding
from the successful embed step, with `processed=false` and `lastError`
equal to the third (final) index failure message; the error also
propagates to the caller. -/
theorem processBookForML_indexFail_spec (embedB : ℕ → Except String (List ℚ))
    (indexB : ℕ → Except String Bool) (pol : RetryPolicy) (now : ℕ)
    (st : Store) (id : String) (bk : Book) (emb : List ℚ) (e : ℕ → String)
    (hf : findById st id = some bk)
    (he : (retryWithBackoff embedB (pol3 pol)).result = .ok emb)
    (hidx : ∀ i, indexB i = .error (e i)) :
    (processBookForML embedB indexB pol now st id).result = .error (e 3) ∧
    ∃ b, findById (processBookForML embedB indexB pol now st id).store id =
        some b ∧
      b.embedding = some emb ∧ b.mlProcessed = false ∧ b.mlError = some (e 3) := by
  have hi : (retryWithBackoff indexB (pol3 pol)).result = .error (some (e 3)) :=
    (retryLoop_always_fail indexB e (pol3 pol) hidx 2 1 rfl le_rfl
      (by show (1 : ℕ) ≤ 3; decide) none).1
  rw [processBookForML_indexFail_eq embedB indexB pol now st id bk emb
    (some (e 3)) hf he hi]
  refine ⟨rfl, ?_⟩
  have h1 := findById_applyUpd_self (saveFn emb now) id st bk hf
  have h2 := findById_applyUpd_self (failFn (e 3)) id _ _ h1
  exact ⟨failFn (e 3) (saveFn emb now bk), h2, rfl, rfl, rfl⟩

theorem processBookForML_indexFail_witness :
    (processBookForML embedOk indexFail polX 0 st0 "b1").result =
      .error "index down" ∧
    ∃ b, findById (processBookForML embedOk indexFail polX 0 st0 "b1").store
        "b1" = some b ∧
      b.embedding = some [1, 2] ∧ b.mlProcessed = false ∧
      b.mlError = some "index down" :=
  processBookForML_indexFail_spec embedOk indexFail polX 0 st0 "b1" bk0 [1, 2]
    (fun _ => "index down") rfl
    (by simp [retryWithBackoff, retryLoop, pol3, polX, embedOk])
    (fun i => rfl)

/-- C1 is false on the code: in a run where embed and index both succeed,
the event prefix up to and including the step-2 persistence contains no
successful index attempt, yet replaying it already shows the stored
document with `processed=true` (the step-2 `updateOne` sets
`mlProcessed: true` before `addToIndex` is ever called). -/
theorem premature_processed_counterexample :
    ¬ (∀ pre post : List Event,
        (processBookForML embedOk indexOk polX 0 st0 "b1").events = pre ++ post →
        (∀ n, Event.indexAttempt n true ∉ pre) →
        ∀ b, findById (applyEvents st0 pre) "b1" = some b →
          b.mlProcessed = false) := by
  intro h
  have hev : (processBookForML embedOk indexOk polX 0 st0 "b1").events =
      [Event.embedAttempt 1, Event.write (.saveEmbedding "b1" [1, 2] 0)] ++
        [Event.indexAttempt 1 true] := by
    rw [processBookForML_indexOk_eq embedOk indexOk polX 0 st0 "b1" bk0 [1, 2]
      true rfl
      (by simp [retryWithBackoff, retryLoop, pol3, polX, embedOk])
      (by simp [retryWithBackoff, retryLoop, pol3, polX, indexOk])]
    have h1 : (retryWithBackoff embedOk (pol3 polX)).attemptsMade = 1 := by
      simp [retryWithBackoff, retryLoop, pol3, polX, embedOk]
    have h2 : (retryWithBackoff indexOk (pol3 polX)).attemptsMade = 1 := by
      simp [retryWithBackoff, retryLoop, pol3, polX, indexOk]
    rw [h1, h2]
    rfl
  have hb := h _ _ hev (by intro n hn; simp at hn)
    (saveFn [1, 2] 0 bk0) rfl
  exact absurd hb (by simp [saveFn])

/-- C1 (amended): within a single enqueue run with a found document and a
successful embed step, `processed=true` is persisted together with the
embedding strictly before any index attempt: the event trace splits into
a prefix free of index attempts after whose replay the stored document
already has `processed=true`, the embedding set and `lastError` cleared. -/
theorem processed_persisted_before_indexing
    (embedB : ℕ → Except String (List ℚ)) (indexB : ℕ → Except String Bool)
    (pol : RetryPolicy) (now : ℕ) (st : Store) (id : String) (bk : Book)
    (emb : List ℚ) (hf : findById st id = some bk)
    (he : (retryWithBackoff embedB (pol3 pol)).result = .ok emb) :
    ∃ pre post : List Event,
      (processBookForML embedB indexB pol now st id).events = pre ++ post ∧
      (∀ n ok, Event.indexAttempt n ok ∉ pre) ∧
      ∃ b, findById (applyEvents st pre) id = some b ∧
        b.mlProcessed = true ∧ b.embedding = some emb ∧ b.mlError = none := by
  have hpre :
      ∃ b, findById (applyEvents st
          ((List.range (retryWithBackoff embedB (pol3 pol)).attemptsMade).map
              (fun i => Event.embedAttempt (i + 1)) ++
            [Event.write (.saveEmbedding id emb now)])) id = some b ∧
        b.mlProcessed = true ∧ b.embedding = some emb ∧ b.mlError = none := by
    rw [applyEvents_append, applyEvents_embedAttempts]
    show ∃ b, findById (applyUpd (saveFn emb now) id st) id = some b ∧ _
    exact ⟨saveFn emb now bk, findById_applyUpd_self (saveFn emb now) id st bk hf,
      rfl, rfl, rfl⟩
  have hmem : ∀ n ok, Event.indexAttempt n ok ∉
      (List.range (retryWithBackoff embedB (pol3 pol)).attemptsMade).map
          (fun i => Event.embedAttempt (i + 1)) ++
        [Event.write (.saveEmbedding id emb now)] := by
    intro n ok hn
    simp at hn
  cases hi : (retryWithBackoff indexB (pol3 pol)).result with
  | ok u =>
    rw [processBookForML_indexOk_eq embedB indexB pol now st id bk emb u hf he hi]
    exact ⟨_, _, rfl, hmem, hpre⟩
  | error e =>
    rw [processBookForML_indexFail_eq embedB indexB pol now st id bk emb e hf he hi]
    refine ⟨_,
      (List.range (retryWithBackoff indexB (pol3 pol)).attemptsMade).map
          (fun i => Event.indexAttempt (i + 1) (isOkE (indexB (i + 1)))) ++
        [Event.write (.markFailed id (e.getD ""))], ?_, hmem, hpre⟩
    show _ ++ _ ++ _ ++ _ = _ ++ _
    simp only [List.append_assoc]

theorem processed_persisted_before_indexing_witness :
    ∃ pre post : List Event,
      (processBookForML embedOk indexFail polX 0 st0 "b1").events = pre ++ post ∧
      (∀ n ok, Event.indexAttempt n ok ∉ pre) ∧
      ∃ b, findById (applyEvents st0 pre) "b1" = some b ∧
        b.mlProcessed = true ∧ b.embedding = some [1, 2] ∧ b.mlError = none :=
  processed_persisted_before_indexing embedOk indexFail polX 0 st0 "b1" bk0
    [1, 2] rfl (by simp [retryWithBackoff, retryLoop, pol3, polX, embedOk])

/-- Stores reachable by the enrichment pipeline operations, starting from
a state in which every document is freshly ingested
(`processed=false`, no embedding, no error — the creation lifecycle of
`createBook`). -/
inductive Reachable : Store → Prop where
  | init (st : Store)
      (h : ∀ e ∈ st, e.2.embedding = none ∧ e.2.mlProcessed = false ∧
        e.2.mlError = none) : Reachable st
  | enqueue (st : Store) (embedB : ℕ → Except String (List ℚ))
      (indexB : ℕ → Except String Bool) (pol : RetryPolicy) (now : ℕ)
      (id : String) (h : Reachable st) :
      Reachable (processBookForML embedB indexB pol now st id).store
  | reprocess (st : Store) (embedB : String → ℕ → Except String (List ℚ))
      (indexB : String → ℕ → Except String Bool) (pol : RetryPolicy) (now : ℕ)
      (h : Reachable st) :
      Reachable (reprocessFailedBooks embedB indexB pol now st).store

/-- C2 is false on the code: a single enqueue whose embed succeeds and
whose index retries are exhausted reaches a store whose document has the
embedding present while `processed=false` and `lastError` set, so
`embedding present ↔ processed ∧ no lastError` fails on a reachable
state. -/
theorem embedding_iff_processed_counterexample :
    ¬ (∀ st, Reachable st → ∀ id b, findById st id = some b →
        (b.embedding.isSome ↔ (b.mlProcessed = true ∧ b.mlError = none))) := by
  intro h
  have hinit : Reachable st0 := .init st0 (by intro e he; simp [st0, bk0] at he; simp [he, bk0])
  have hre : Reachable (processBookForML embedOk indexFail polX 0 st0 "b1").store :=
    .enqueue st0 embedOk indexFail polX 0 "b1" hinit
  have hfind : findById (processBookForML embedOk indexFail polX 0 st0 "b1").store
      "b1" = some (failFn "index down" (saveFn [1, 2] 0 bk0)) := by
    rw [processBookForML_indexFail_eq embedOk indexFail polX 0 st0 "b1" bk0
      [1, 2] (some "index down") rfl
      (by simp [retryWithBackoff, retryLoop, pol3, polX, embedOk])
      (by simp [retryWithBackoff, retryLoop, pol3, polX, indexFail])]
    rfl
  have hiff := (h _ hre "b1" _ hfind).mp (by simp [failFn, saveFn])
  exact absurd hiff.1 (by simp [failFn])

/-- C2 (amended): the backward direction of the invariant holds on every
reachable store — a document with `processed=true` and no `lastError`
always carries an embedding; the forward direction fails after an index
failure (embedding retained with `processed=false` and `lastError` set). -/
theorem processed_implies_embedding (st : Store) (h : Reachable st) :
    ∀ id b, findById st id = some b → b.mlProcessed = true →
      b.mlError = none → b.embedding.isSome := by
  have good : GoodStore st := by
    induction h with
    | init st h0 =>
      intro e he hp
      rw [(h0 e he).2.1] at hp
      exact absurd hp Bool.false_ne_true
    | enqueue st eB iB pol now id _ ih =>
      exact goodStore_processBookForML eB iB pol now st id ih
    | reprocess st eB iB pol now _ ih =>
      show GoodStore
        ((((st.filter isFailedDoc).take 10).map (fun e => e.1)).foldl
          (fun s id => (processBookForML (eB id) (iB id) pol now s id).store) st)
      exact goodStore_foldl eB iB pol now _ st ih
  intro id b hf hp _
  obtain ⟨k, hk⟩ := findById_mem st id b hf
  exact good (k, b) hk hp

theorem processed_implies_embedding_witness :
    Reachable (processBookForML embedOk indexOk polX 0 st0 "b1").store ∧
    findById (processBookForML embedOk indexOk polX 0 st0 "b1").store "b1" =
      some (saveFn [1, 2] 0 bk0) ∧
    (saveFn [1, 2] 0 bk0).embedding.isSome := by
  have hre : Reachable (processBookForML embedOk indexOk polX 0 st0 "b1").store :=
    .enqueue st0 embedOk indexOk polX 0 "b1"
      (.init st0 (by intro e he; simp [st0, bk0] at he; simp [he, bk0]))
  have hfind : findById (processBookForML embedOk indexOk polX 0 st0 "b1").store
      "b1" = some (saveFn [1, 2] 0 bk0) := by
    rw [processBookForML_indexOk_eq embedOk indexOk polX 0 st0 "b1" bk0 [1, 2]
      true rfl
      (by simp [retryWithBackoff, retryLoop, pol3, polX, embedOk])
      (by simp [retryWithBackoff, retryLoop, pol3, polX, indexOk])]
    rfl
  exact ⟨hre, hfind,
    processed_implies_embedding _ hre "b1" (saveFn [1, 2] 0 bk0) hfind rfl rfl⟩

/-- With unique `_id`s (a MongoDB invariant), membership determines the
`findById` result. -/
lemma findById_of_mem_nodup (id : String) (b : Book) :
    ∀ st : Store, (st.map (fun e => e.1)).Nodup → (id, b) ∈ st →
      findById st id = some b := by
  intro st
  induction st with
  | nil => intro _ hm; cases hm
  | cons e rest ih =>
    intro hnd hm
    rw [findById_cons]
    rcases List.mem_cons.mp hm with hme | hmr
    · rw [← hme]
      simp
    · by_cases he : (e.1 == id) = true
      · exfalso
        have h1 : e.1 = id := by simpa using he
        have : id ∈ rest.map (fun e => e.1) :=
          List.mem_map.mpr ⟨(id, b), hmr, rfl⟩
        rw [List.map_cons, List.nodup_cons, h1] at hnd
        exact hnd.1 this
      · rw [if_neg he]
        exact ih (by rw [List.map_cons, List.nodup_cons] at hnd; exact hnd.2) hmr

/-- Documents outside the reprocessed batch are untouched by the fold. -/
lemma findById_foldl_ne (embedB : String → ℕ → Except String (List ℚ))
    (indexB : String → ℕ → Except String Bool) (pol : RetryPolicy) (now : ℕ)
    (jd : String) :
    ∀ (ids : List String) (st : Store), jd ∉ ids →
      findById (ids.foldl
        (fun s id => (processBookForML (embedB id) (indexB id) pol now s id).store)
        st) jd = findById st jd := by
  intro ids
  induction ids with
  | nil => intro st _; rfl
  | cons x xs ih =>
    intro st hn
    rw [List.mem_cons] at hn
    push_neg at hn
    rw [List.foldl_cons, ih _ hn.2,
      findById_processBookForML_ne _ _ pol now st x jd (fun hx => hn.1 hx.symm)]

/-- A stored document that has failed enrichment. -/
def failedBook : Book := ⟨"T", "A", none, "t", none, false, none, some "boom"⟩

def storeA : Store := (List.range 15).map (fun i => ("d" ++ toString i, failedBook))

def storeB : Store := [("x1", failedBook), ("x2", failedBook)]

def embedPerDoc : String → ℕ → Except String (List ℚ) := fun _ _ => .ok [1]

def indexPerDoc : String → ℕ → Except String Bool := fun _ _ => .ok true

/-- C8 is false on the code as regards its interface: `reprocessFailedBooks`
takes no `limit` argument (the 10 is hardcoded) and returns
`Promise<void>`, not a count — two runs that process 10 and 2 failed
documents respectively return the very same value. -/
theorem reprocess_returns_no_count_counterexample :
    (storeA.filter isFailedDoc).length = 15 ∧
    (storeB.filter isFailedDoc).length = 2 ∧
    (reprocessFailedBooks embedPerDoc indexPerDoc polX 0 storeA).attempted.length
      = 10 ∧
    (reprocessFailedBooks embedPerDoc indexPerDoc polX 0 storeB).attempted.length
      = 2 ∧
    (reprocessFailedBooks embedPerDoc indexPerDoc polX 0 storeA).ret =
      (reprocessFailedBooks embedPerDoc indexPerDoc polX 0 storeB).ret :=
  ⟨rfl, rfl, rfl, rfl, rfl⟩

/-- C8 (amended): `reprocessFailedBooks` (no limit parameter; the batch
size is hardcoded to 10) selects only documents with `processed=false`
and `lastError` present, at most 10 of them in natural order, submits
each through `processBookForML` regardless of other documents' outcomes
(the attempted batch does not depend on the external behaviours), leaves
every non-selected document untouched, and returns no count. -/
theorem reprocessFailedBooks_spec (embedB : String → ℕ → Except String (List ℚ))
    (indexB : String → ℕ → Except String Bool) (pol : RetryPolicy) (now : ℕ)
    (st : Store) (hnd : (st.map (fun e => e.1)).Nodup) :
    (reprocessFailedBooks embedB indexB pol now st).ret = () ∧
    (reprocessFailedBooks embedB indexB pol now st).attempted =
      ((st.filter isFailedDoc).take 10).map (fun e => e.1) ∧
    (reprocessFailedBooks embedB indexB pol now st).attempted.length =
      min 10 (st.filter isFailedDoc).length ∧
    (∀ id ∈ (reprocessFailedBooks embedB indexB pol now st).attempted,
      ∃ b, findById st id = some b ∧ b.mlProcessed = false ∧ b.mlError.isSome) ∧
    (∀ jd, jd ∉ (reprocessFailedBooks embedB indexB pol now st).attempted →
      findById (reprocessFailedBooks embedB indexB pol now st).store jd =
        findById st jd) ∧
    (∀ (embedB2 : String → ℕ → Except String (List ℚ))
        (indexB2 : String → ℕ → Except String Bool),
      (reprocessFailedBooks embedB2 indexB2 pol now st).attempted =
        (reprocessFailedBooks embedB indexB pol now st).attempted) := by
  refine ⟨rfl, rfl, ?_, ?_, ?_, fun _ _ => rfl⟩
  · show (((st.filter isFailedDoc).take 10).map (fun e => e.1)).length = _
    rw [List.length_map, List.length_take]
  · intro id hid
    have hid2 : id ∈ ((st.filter isFailedDoc).take 10).map (fun e => e.1) := hid
    obtain ⟨e, he, rfl⟩ := List.mem_map.mp hid2
    have hef : e ∈ st.filter isFailedDoc := List.mem_of_mem_take he
    have hmem := List.mem_filter.mp hef
    have hfail : e.2.mlProcessed = false ∧ e.2.mlError.isSome := by
      have h2 := hmem.2
      rw [isFailedDoc] at h2
      simpa using h2
    refine ⟨e.2, ?_, hfail.1, hfail.2⟩
    exact findById_of_mem_nodup e.1 e.2 st hnd hmem.1
  · intro jd hjd
    show findById ((((st.filter isFailedDoc).take 10).map (fun e => e.1)).foldl
      (fun s id => (processBookForML (embedB id) (indexB id) pol now s id).store)
      st) jd = findById st jd
    exact findById_foldl_ne embedB indexB pol now jd _ st hjd

theorem reprocessFailedBooks_spec_witness :
    ((storeA.map (fun e => e.1)).Nodup) ∧
    (reprocessFailedBooks embedPerDoc indexPerDoc polX 0 storeA).ret = () ∧
    (reprocessFailedBooks embedPerDoc indexPerDoc polX 0 storeA).attempted.length
      = min 10 (storeA.filter isFailedDoc).length ∧
    (∀ id ∈ (reprocessFailedBooks embedPerDoc indexPerDoc polX 0 storeA).attempted,
      ∃ b, findById storeA id = some b ∧ b.mlProcessed = false ∧
        b.mlError.isSome) :=
  have h := reprocessFailedBooks_spec embedPerDoc indexPerDoc polX 0 storeA
    (by decide)
  ⟨by decide, h.1, h.2.2.1, h.2.2.2.1⟩

/-! ## Tokenizer (src/utils/tokenizer) and frequency counter
(src/analytics/wordFrequency) -/

def isLowerAlpha (c : Char) : Bool := decide ('a' ≤ c) && decide (c ≤ 'z')

/-- The whitespace class used by the regexes `[^a-z\s]` and `\s+`
(the ASCII part of the JS `\s` class; the remaining Unicode space code
points play no role in the claims). -/
def isSpaceChar (c : Char) : Bool :=
  c == ' ' || c == '\t' || c == '\n' || c == '\r' || c == '\x0b' || c == '\x0c'

/-- A character surviving `.replace(/[^a-z\s]/g, "")`. -/
def keepChar (c : Char) : Bool := isLowerAlpha c || isSpaceChar c

/-- Modelled from the spec: the `STOP_WORDS` constant imported by
src/utils/tokenizer from "./stopwords" is not among the provided source
files; the spec (section 4.1) says only that tokens "that belong to a
fixed stop-word set" are discarded.  A representative fixed set of common
English stop words stands in for it; no theorem below depends on the
set's contents. -/
def STOP_WORDS : List String :=
  ["the", "and", "for", "are", "but", "not", "you", "all", "was", "his",
   "her", "with", "this", "that", "from", "they", "she", "him", "have", "has"]

/-- Splitting on `/\s+/` with empty pieces dropped (the later
`length > 2` filter drops empty strings anyway): accumulate the current
run of non-space characters (reversed) and flush it at each space. -/
def groupsAux : List Char → List Char → List (List Char)
  | [], acc => if acc.isEmpty then [] else [acc.reverse]
  | c :: cs, acc =>
    if isSpaceChar c then
      if acc.isEmpty then groupsAux cs [] else acc.reverse :: groupsAux cs []
    else groupsAux cs (c :: acc)

/-- The character stream after `.toLowerCase().replace(/[^a-z\s]/g, "")`
(`Char.toLower` is the ASCII lowering; non-ASCII letters are stripped by
the filter either way). -/
def charPrep (s : String) : List Char := (s.data.map Char.toLower).filter keepChar

/-- Embedding of `tokenize(text)` from src/utils/tokenizer. -/
def tokenize (s : String) : List String :=
  ((groupsAux (charPrep s) []).map (fun g => String.mk g)).filter
    (fun w => decide (w.length > 2) && !(STOP_WORDS.contains w))

/-- The module-global `globalFrequency` Map, as its entry list in
insertion order. -/
abbrev FreqTable := List (String × ℕ)

/-- One `globalFrequency.set(word, (globalFrequency.get(word) || 0) + 1)`
step: a JS Map updates an existing key in place and appends a fresh key. -/
def bump (t : FreqTable) (w : String) : FreqTable :=
  if t.any (fun e => e.1 == w) then
    t.map (fun e => if e.1 == w then (e.1, e.2 + 1) else e)
  else t ++ [(w, 1)]

/-- Embedding of `analyzePage(text)` (the table passed explicitly). -/
def analyzePage (t : FreqTable) (text : String) : FreqTable :=
  (tokenize text).foldl bump t

/-- The count the Map associates to `w` (`get(w) || 0`). -/
def countOf (t : FreqTable) (w : String) : ℕ :=
  ((t.find? (fun e => e.1 == w)).map (fun e => e.2)).getD 0

/-- Space-separated concatenation of chunks. -/
def joinSpace : List String → String
  | [] => ""
  | [c] => c
  | c :: cs => c ++ " " ++ joinSpace cs

lemma countOf_nil (w : String) : countOf [] w = 0 := rfl

lemma countOf_cons (e : String × ℕ) (t : FreqTable) (w : String) :
    countOf (e :: t) w = if e.1 == w then e.2 else countOf t w := by
  by_cases he : (e.1 == w) = true <;> simp [countOf, List.find?_cons, he]

lemma countOf_mapIncr_ne (x w : String) (hxw : x ≠ w) :
    ∀ t : FreqTable,
      countOf (t.map (fun e => if e.1 == x then (e.1, e.2 + 1) else e)) w =
        countOf t w := by
  intro t
  induction t with
  | nil => rfl
  | cons e rest ih =>
    rw [List.map_cons]
    by_cases hx : (e.1 == x) = true
    · have h1 : e.1 = x := by simpa using hx
      have hew : (e.1 == w) = false := by
        simp only [beq_eq_false_iff_ne, ne_eq, h1]
        exact hxw
      have hne : ¬ ((e.1 == w) = true) := by simp [hew]
      rw [if_pos hx, countOf_cons, countOf_cons, if_neg (by simpa using hne),
        if_neg hne]
      exact ih
    · rw [if_neg hx, countOf_cons, countOf_cons, ih]

lemma countOf_mapIncr_self (w : String) :
    ∀ t : FreqTable, (t.any (fun e => e.1 == w)) = true →
      countOf (t.map (fun e => if e.1 == w then (e.1, e.2 + 1) else e)) w =
        countOf t w + 1 := by
  intro t
  induction t with
  | nil => intro h; cases h
  | cons e rest ih =>
    intro hany
    rw [List.map_cons]
    by_cases hx : (e.1 == w) = true
    · rw [if_pos hx]
      simp [countOf_cons, hx]
    · rw [if_neg hx, countOf_cons, countOf_cons, if_neg (by simp [hx]),
        if_neg (by simp [hx])]
      apply ih
      rw [List.any_cons] at hany
      rcases Bool.or_eq_true_iff.mp hany with h1 | h2
      · exact absurd h1 hx
      · exact h2

lemma countOf_append_single_ne (x w : String) (hxw : x ≠ w) (t : FreqTable) :
    countOf (t ++ [(x, 1)]) w = countOf t w := by
  induction t with
  | nil => simp [countOf_nil, countOf_cons, hxw]
  | cons e rest ih =>
    by_cases he : (e.1 == w) = true <;>
      simp [List.cons_append, countOf_cons, he, ih]

lemma countOf_append_single_self (w : String) :
    ∀ t : FreqTable, (∀ e ∈ t, (e.1 == w) = false) →
      countOf (t ++ [(w, 1)]) w = countOf t w + 1 := by
  intro t
  induction t with
  | nil =>
    intro _
    rw [List.nil_append, countOf_cons]
    simp [countOf_nil]
  | cons e rest ih =>
    intro h
    have he := h e (List.mem_cons_self _ _)
    have hne : ¬ ((e.1 == w) = true) := by simp [he]
    rw [List.cons_append, countOf_cons, countOf_cons, if_neg hne, if_neg hne]
    exact ih (fun e2 h2 => h e2 (List.mem_cons_of_mem _ h2))

lemma countOf_bump (t : FreqTable) (x w : String) :
    countOf (bump t x) w = countOf t w + (if x = w then 1 else 0) := by
  rw [bump]
  by_cases hany : (t.any (fun e => e.1 == x)) = true
  · rw [if_pos hany]
    by_cases hxw : x = w
    · subst hxw
      rw [countOf_mapIncr_self x t hany]
      simp
    · rw [countOf_mapIncr_ne x w hxw t]
      simp [hxw]
  · rw [if_neg hany]
    have hnx : ∀ e ∈ t, (e.1 == x) = false := by
      intro e he
      by_contra hc
      exact hany (List.any_eq_true.mpr ⟨e, he, by simpa using hc⟩)
    by_cases hxw : x = w
    · subst hxw
      rw [countOf_append_single_self x t hnx]
      simp
    · rw [countOf_append_single_ne x w hxw t]
      simp [hxw]

lemma countOf_foldl_bump (w : String) :
    ∀ (toks : List String) (t : FreqTable),
      countOf (toks.foldl bump t) w = countOf t w + toks.count w := by
  intro toks
  induction toks with
  | nil => intro t; simp
  | cons x xs ih =>
    intro t
    rw [List.foldl_cons, ih, countOf_bump, List.count_cons]
    by_cases h : x = w <;> simp [h] <;> omega

/-- Splitting distributes over a space: the groups of
`xs ++ ' ' :: ys` are the groups of `xs` (the space flushes any open
run) followed by the groups of `ys`. -/
lemma groupsAux_split (ys : List Char) :
    ∀ (xs acc : List Char),
      groupsAux (xs ++ ' ' :: ys) acc = groupsAux xs acc ++ groupsAux ys [] := by
  intro xs
  induction xs with
  | nil =>
    intro acc
    rw [List.nil_append]
    by_cases ha : acc.isEmpty = true <;>
      simp [groupsAux, ha, show isSpaceChar ' ' = true from rfl]
  | cons c cs ih =>
    intro acc
    rw [List.cons_append]
    by_cases hsp : isSpaceChar c = true
    · by_cases ha : acc.isEmpty = true <;> simp [groupsAux, hsp, ha, ih]
    · simp [groupsAux, hsp, ih]

lemma charPrep_append (a b : String) :
    charPrep (a ++ b) = charPrep a ++ charPrep b := by
  simp [charPrep, String.data_append]

lemma charPrep_space : charPrep " " = [' '] := rfl

/-- Tokenization distributes over space-separated concatenation. -/
lemma tokenize_append_space (a b : String) :
    tokenize (a ++ " " ++ b) = tokenize a ++ tokenize b := by
  rw [tokenize, tokenize, tokenize, charPrep_append, charPrep_append,
    charPrep_space, List.append_assoc, List.singleton_append, groupsAux_split,
    List.map_append, List.filter_append]

lemma count_tokenize_joinSpace (w : String) :
    ∀ chunks : List String,
      (tokenize (joinSpace chunks)).count w =
        (chunks.map (fun c => (tokenize c).count w)).sum := by
  intro chunks
  induction chunks with
  | nil => rfl
  | cons c cs ih =>
    cases cs with
    | nil => simp [joinSpace]
    | cons d ds =>
      have hj : joinSpace (c :: d :: ds) = c ++ " " ++ joinSpace (d :: ds) := rfl
      rw [hj, tokenize_append_space, List.count_append, ih]
      simp [List.map_cons, List.sum_cons]

/-- C6: applying `record` (`analyzePage`) chunk-by-chunk, in any order,
starting from the empty table, yields the same final word-to-count table
(as a mapping) as a single `record` of the space-separated concatenation
of the chunks. -/
theorem record_chunks_any_order_eq_concat (chunks chunksPerm : List String)
    (hperm : chunksPerm.Perm chunks) (w : String) :
    countOf (chunksPerm.foldl analyzePage []) w =
      countOf (analyzePage [] (joinSpace chunks)) w := by
  have hfold : ∀ (chs : List String) (t : FreqTable),
      countOf (chs.foldl analyzePage t) w =
        countOf t w + (chs.map (fun c => (tokenize c).count w)).sum := by
    intro chs
    induction chs with
    | nil => intro t; simp
    | cons c cs ih =>
      intro t
      rw [List.foldl_cons, ih, analyzePage, countOf_foldl_bump]
      simp [List.map_cons, List.sum_cons]
      omega
  rw [hfold chunksPerm [], analyzePage, countOf_foldl_bump, countOf_nil,
    count_tokenize_joinSpace]
  have hs := (hperm.map (fun c => (tokenize c).count w)).sum_eq
  omega

theorem record_chunks_any_order_eq_concat_witness :
    countOf ((["beta beta", "alpha gamma"] : List String).foldl analyzePage [])
        "beta" =
      countOf (analyzePage [] (joinSpace ["alpha gamma", "beta beta"])) "beta" :=
  record_chunks_any_order_eq_concat ["alpha gamma", "beta beta"]
    ["beta beta", "alpha gamma"] (by decide) "beta"

/-! ## Top-K selection (src/analytics/wordFrequency: `MinHeap`,
`getTopWords`, `getTopWordsHeap`) -/

/-- A `[word, count]` entry of `globalFrequency.entries()`. -/
abbrev Entry := String × ℕ

/-- The (unreachable) value read by an out-of-bounds array access. -/
def dummyE : Entry := ("", 0)

def nthE (l : List Entry) (i : ℕ) : Entry := l.getD i dummyE

/-- The two-assignment swap
`[data[i], data[j]] = [data[j], data[i]]`. -/
def swapL (l : List Entry) (i j : ℕ) : List Entry :=
  (l.set i (nthE l j)).set j (nthE l i)

lemma length_swapL (l : List Entry) (i j : ℕ) :
    (swapL l i j).length = l.length := by
  simp [swapL]

/-- `bubbleUp(index)` of `MinHeap`: while the entry's count is smaller
than its parent's (`compare(data[index], data[parent]) < 0`), swap and
continue from the parent. -/
def bubbleUp (l : List Entry) (i : ℕ) : List Entry :=
  if _h : i = 0 then l
  else
    if (nthE l i).2 < (nthE l ((i - 1) / 2)).2 then
      bubbleUp (swapL l i ((i - 1) / 2)) ((i - 1) / 2)
    else l
termination_by i
decreasing_by omega

/-- The index `smallest` computed by one `bubbleDown` iteration: left
child if in range and strictly smaller than the current entry, then
right child if in range and strictly smaller than that. -/
def downTarget (l : List Entry) (i : ℕ) : ℕ :=
  let s1 := if 2 * i + 1 < l.length ∧ (nthE l (2 * i + 1)).2 < (nthE l i).2
    then 2 * i + 1 else i
  if 2 * i + 2 < l.length ∧ (nthE l (2 * i + 2)).2 < (nthE l s1).2
    then 2 * i + 2 else s1

lemma downTarget_ne (l : List Entry) (i : ℕ) (h : downTarget l i ≠ i) :
    i < downTarget l i ∧ downTarget l i < l.length ∧
      (nthE l (downTarget l i)).2 < (nthE l i).2 ∧
      (downTarget l i - 1) / 2 = i := by
  simp only [downTarget] at h ⊢
  by_cases h1 : 2 * i + 1 < l.length ∧ (nthE l (2 * i + 1)).2 < (nthE l i).2
  · rw [if_pos h1] at h ⊢
    by_cases h2 : 2 * i + 2 < l.length ∧
        (nthE l (2 * i + 2)).2 < (nthE l (2 * i + 1)).2
    · rw [if_pos h2] at h ⊢
      exact ⟨by omega, h2.1, h2.2.trans h1.2, by omega⟩
    · rw [if_neg h2] at h ⊢
      exact ⟨by omega, h1.1, h1.2, by omega⟩
  · rw [if_neg h1] at h ⊢
    by_cases h2 : 2 * i + 2 < l.length ∧ (nthE l (2 * i + 2)).2 < (nthE l i).2
    · rw [if_pos h2] at h ⊢
      exact ⟨by omega, h2.1, h2.2, by omega⟩
    · rw [if_neg h2] at h ⊢
      exact absurd rfl h

/-- `bubbleDown(index)` of `MinHeap`: while some child is strictly
smaller, swap with the smallest child and continue there. -/
def bubbleDown (l : List Entry) (i : ℕ) : List Entry :=
  if h : downTarget l i ≠ i then
    bubbleDown (swapL l i (downTarget l i)) (downTarget l i)
  else l
termination_by l.length - i
decreasing_by
  rw [length_swapL]
  have := downTarget_ne l i h
  omega

/-- `push(item)`: append at the end and bubble up from the last index. -/
def heapPush (l : List Entry) (x : Entry) : List Entry :=
  bubbleUp (l ++ [x]) l.length

/-- `pop()`: return the root; move the last element to the root and
bubble down (the `n > 1` case), or just remove it (`n ≤ 1`). -/
def heapPop (l : List Entry) : Option Entry × List Entry :=
  match l with
  | [] => (none, [])
  | [x] => (some x, [])
  | x :: y :: rest =>
    (some x,
      bubbleDown (((x :: y :: rest).dropLast).set 0
        (((x :: y :: rest).getLast?).getD dummyE)) 0)

/-- Descending order on counts, the comparator `(a, b) => b[1] - a[1]`. -/
def cntGE (a b : Entry) : Prop := b.2 ≤ a.2

instance : DecidableRel cntGE := fun a b => inferInstanceAs (Decidable (b.2 ≤ a.2))

instance : IsTotal Entry cntGE := ⟨fun a b => le_total b.2 a.2⟩

instance : IsTrans Entry cntGE := ⟨fun _ _ _ h1 h2 => le_trans h2 h1⟩

/-- The stable `Array.prototype.sort` under the descending-count
comparator, modelled by the stable insertion sort. -/
def sortDesc (l : List Entry) : List Entry := List.insertionSort cntGE l

/-- One iteration of the `getTopWordsHeap` loop:
`heap.push(entry); if (heap.size() > topN) heap.pop();`. -/
def heapStep (K : ℕ) (h : List Entry) (e : Entry) : List Entry :=
  if K < (heapPush h e).length then (heapPop (heapPush h e)).2 else heapPush h e

/-- Embedding of `getTopWordsHeap(topN)` over a table snapshot. -/
def getTopWordsHeap (table : List Entry) (topN : ℤ) : List Entry :=
  if topN ≤ 0 then []
  else sortDesc (table.foldl (heapStep topN.toNat) [])

/-- `Array.prototype.slice(0, n)`, including the negative-index case. -/
def jsSlice (l : List Entry) (n : ℤ) : List Entry :=
  if 0 ≤ n then l.take n.toNat else l.take ((l.length : ℤ) + n).toNat

/-- Embedding of `getTopWords(topN)` over a table snapshot. -/
def getTopWords (table : List Entry) (topN : ℤ) : List Entry :=
  jsSlice (sortDesc table) topN

lemma nthE_eq_getElem (l : List Entry) (i : ℕ) (h : i < l.length) :
    nthE l i = l[i] := by
  simp [nthE, List.getD_eq_getElem?_getD, List.getElem?_eq_getElem h]

lemma nthE_set_self (l : List Entry) (i : ℕ) (a : Entry) (h : i < l.length) :
    nthE (l.set i a) i = a := by
  simp [nthE, List.getElem?_set_self h]

lemma nthE_set_ne (l : List Entry) (i j : ℕ) (a : Entry) (h : i ≠ j) :
    nthE (l.set i a) j = nthE l j := by
  simp [nthE, List.getElem?_set_ne h]

lemma nthE_append_left (l l2 : List Entry) (i : ℕ) (h : i < l.length) :
    nthE (l ++ l2) i = nthE l i := by
  simp [nthE, List.getElem?_append_left h]

lemma nthE_concat_length (l : List Entry) (x : Entry) :
    nthE (l ++ [x]) l.length = x := by
  simp [nthE, List.getElem?_concat_length]

lemma nthE_swapL_fst (l : List Entry) (i j : ℕ) (hi : i < l.length)
    (hj : j < l.length) : nthE (swapL l i j) i = nthE l j := by
  rw [swapL]
  by_cases hij : i = j
  · subst hij
    rw [nthE_set_self _ _ _ (by simpa using hi)]
  · rw [nthE_set_ne _ _ _ _ (fun hh => hij hh.symm), nthE_set_self _ _ _ hi]

lemma nthE_swapL_snd (l : List Entry) (i j : ℕ) (_hi : i < l.length)
    (hj : j < l.length) : nthE (swapL l i j) j = nthE l i := by
  rw [swapL, nthE_set_self _ _ _ (by simpa using hj)]

lemma nthE_swapL_other (l : List Entry) (i j k : ℕ) (hki : k ≠ i)
    (hkj : k ≠ j) : nthE (swapL l i j) k = nthE l k := by
  rw [swapL, nthE_set_ne _ _ _ _ (fun hh => hkj hh.symm),
    nthE_set_ne _ _ _ _ (fun hh => hki hh.symm)]

lemma set_cons_perm :
    ∀ (xs : List Entry) (k : ℕ) (x : Entry), k < xs.length →
      (nthE xs k :: xs.set k x).Perm (x :: xs) := by
  intro xs
  induction xs with
  | nil => intro k x hk; cases hk
  | cons y ys ih =>
    intro k x hk
    cases k with
    | zero => exact List.Perm.swap x y ys
    | succ m =>
      have hm : m < ys.length := by simpa using hk
      have p1 : List.Perm (nthE ys m :: y :: ys.set m x)
          (y :: nthE ys m :: ys.set m x) := List.Perm.swap _ _ _
      have p2 : List.Perm (y :: nthE ys m :: ys.set m x) (y :: x :: ys) :=
        (ih m x hm).cons y
      have p3 : List.Perm (y :: x :: ys) (x :: y :: ys) := List.Perm.swap _ _ _
      exact p1.trans (p2.trans p3)

lemma set_nthE_self : ∀ (l : List Entry) (i : ℕ), i < l.length →
    l.set i (nthE l i) = l := by
  intro l
  induction l with
  | nil => intro i hi; cases hi
  | cons y ys ih =>
    intro i hi
    cases i with
    | zero => rfl
    | succ m =>
      have : ys.set m (nthE ys m) = ys := ih m (by simpa using hi)
      simpa [List.set] using this

lemma perm_swapL_lt :
    ∀ (l : List Entry) (i j : ℕ), i < j → j < l.length → (swapL l i j).Perm l := by
  intro l
  induction l with
  | nil => intro i j _ hj; cases hj
  | cons y ys ih =>
    intro i j hij hj
    cases j with
    | zero => cases hij
    | succ k =>
      have hk : k < ys.length := by simpa using hj
      cases i with
      | zero => exact set_cons_perm ys k y hk
      | succ m =>
        have hmk : m < k := by omega
        show List.Perm (y :: swapL ys m k) (y :: ys)
        exact (ih m k hmk hk).cons y

lemma perm_swapL (l : List Entry) (i j : ℕ) (hi : i < l.length)
    (hj : j < l.length) : (swapL l i j).Perm l := by
  rcases Nat.lt_trichotomy i j with h | h | h
  · exact perm_swapL_lt l i j h hj
  · subst h
    rw [swapL, List.set_set, set_nthE_self l i hi]
  · rw [swapL, List.set_comm _ _ _ (by omega)]
    exact perm_swapL_lt l j i h hi

/-- The min-heap invariant of the `data` array: every non-root entry's
count is at least its parent's. -/
def IsMinHeap (l : List Entry) : Prop :=
  ∀ j, 0 < j → j < l.length → (nthE l ((j - 1) / 2)).2 ≤ (nthE l j).2

/-- Sift-up correctness: if the heap relation holds at every edge except
possibly the one into `i`, and `i`'s grandparent (when `i` has one)
already dominates `i`'s children, then `bubbleUp` restores the full heap
invariant and permutes nothing. -/
lemma bubbleUp_spec :
    ∀ (i : ℕ) (l : List Entry), i < l.length →
      (∀ j, 0 < j → j < l.length → j ≠ i →
        (nthE l ((j - 1) / 2)).2 ≤ (nthE l j).2) →
      (0 < i → ∀ c, c < l.length → (c - 1) / 2 = i →
        (nthE l ((i - 1) / 2)).2 ≤ (nthE l c).2) →
      IsMinHeap (bubbleUp l i) ∧ (bubbleUp l i).Perm l := by
  intro i
  induction i using Nat.strong_induction_on with
  | _ i ih =>
    intro l hlen hrest hgrand
    rw [bubbleUp]
    by_cases h0 : i = 0
    · rw [dif_pos h0]
      subst h0
      exact ⟨fun j hj1 hj2 => hrest j hj1 hj2 (by omega), List.Perm.refl l⟩
    · rw [dif_neg h0]
      set p := (i - 1) / 2 with hp
      by_cases hlt : (nthE l i).2 < (nthE l p).2
      · rw [if_pos hlt]
        have hpi : p < i := by omega
        have hpl : p < (swapL l i p).length := by rw [length_swapL]; omega
        have hfi : nthE (swapL l i p) i = nthE l p :=
          nthE_swapL_fst l i p hlen (by omega)
        have hfp : nthE (swapL l i p) p = nthE l i :=
          nthE_swapL_snd l i p hlen (by omega)
        have hfo : ∀ k, k ≠ i → k ≠ p → nthE (swapL l i p) k = nthE l k :=
          fun k h1 h2 => nthE_swapL_other l i p k h1 h2
        have hmain := ih p hpi (swapL l i p) hpl ?hrest2 ?hgrand2
        exact ⟨hmain.1, hmain.2.trans (perm_swapL l i p hlen (by omega))⟩
        case hrest2 =>
          intro j hj1 hj2 hjp
          rw [length_swapL] at hj2
          by_cases hji : j = i
          · subst hji
            rw [← hp, hfp, hfi]
            exact hlt.le
          · rw [hfo j hji hjp]
            by_cases hq1 : (j - 1) / 2 = i
            · rw [hq1, hfi]
              exact hgrand (by omega) j hj2 hq1
            · by_cases hq2 : (j - 1) / 2 = p
              · rw [hq2, hfp]
                have hr := hrest j hj1 hj2 hji
                rw [hq2] at hr
                exact hlt.le.trans hr
              · rw [hfo _ hq1 hq2]
                exact hrest j hj1 hj2 hji
        case hgrand2 =>
          intro hp0 c hc hcp
          rw [length_swapL] at hc
          have hgp : (p - 1) / 2 ≠ i := by omega
          have hgpp : (p - 1) / 2 ≠ p := by omega
          rw [hfo _ hgp hgpp]
          have hrelp : (nthE l ((p - 1) / 2)).2 ≤ (nthE l p).2 :=
            hrest p hp0 (by omega) (by omega)
          by_cases hci : c = i
          · subst hci
            rw [hfi]
            exact hrelp
          · have hcp2 : c ≠ p := by omega
            rw [hfo _ hci hcp2]
            have hc0 : 0 < c := by omega
            have hr := hrest c hc0 hc hci
            rw [hcp] at hr
            exact hrelp.trans hr
      · rw [if_neg hlt]
        push_neg at hlt
        refine ⟨fun j hj1 hj2 => ?_, List.Perm.refl l⟩
        by_cases hji : j = i
        · subst hji
          exact hlt
        · exact hrest j hj1 hj2 hji

lemma downTarget_le_self (l : List Entry) (i : ℕ) :
    (nthE l (downTarget l i)).2 ≤ (nthE l i).2 := by
  simp only [downTarget]
  by_cases h1 : 2 * i + 1 < l.length ∧ (nthE l (2 * i + 1)).2 < (nthE l i).2
  · rw [if_pos h1]
    by_cases h2 : 2 * i + 2 < l.length ∧
        (nthE l (2 * i + 2)).2 < (nthE l (2 * i + 1)).2
    · rw [if_pos h2]
      exact (h2.2.trans h1.2).le
    · rw [if_neg h2]
      exact h1.2.le
  · rw [if_neg h1]
    by_cases h2 : 2 * i + 2 < l.length ∧ (nthE l (2 * i + 2)).2 < (nthE l i).2
    · rw [if_pos h2]
      exact h2.2.le
    · rw [if_neg h2]

lemma downTarget_le_children (l : List Entry) (i : ℕ) :
    ∀ c, c < l.length → (c - 1) / 2 = i → 0 < c →
      (nthE l (downTarget l i)).2 ≤ (nthE l c).2 := by
  intro c hc hcp hc0
  have hc12 : c = 2 * i + 1 ∨ c = 2 * i + 2 := by omega
  simp only [downTarget]
  by_cases h1 : 2 * i + 1 < l.length ∧ (nthE l (2 * i + 1)).2 < (nthE l i).2
  · rw [if_pos h1]
    by_cases h2 : 2 * i + 2 < l.length ∧
        (nthE l (2 * i + 2)).2 < (nthE l (2 * i + 1)).2
    · rw [if_pos h2]
      rcases hc12 with rfl | rfl
      · exact h2.2.le
      · exact le_rfl
    · rw [if_neg h2]
      push_neg at h2
      rcases hc12 with rfl | rfl
      · exact le_rfl
      · exact h2 hc
  · rw [if_neg h1]
    push_neg at h1
    by_cases h2 : 2 * i + 2 < l.length ∧ (nthE l (2 * i + 2)).2 < (nthE l i).2
    · rw [if_pos h2]
      rcases hc12 with rfl | rfl
      · exact h2.2.le.trans (h1 hc)
      · exact le_rfl
    · rw [if_neg h2]
      push_neg at h2
      rcases hc12 with rfl | rfl
      · exact h1 hc
      · exact h2 hc

/-- Sift-down correctness: if the heap relation holds at every edge not
leaving `i`, and `i`'s parent (when `i` has one) already dominates `i`'s
children, then `bubbleDown` restores the full heap invariant and only
permutes the array. -/
lemma bubbleDown_spec :
    ∀ (n : ℕ) (l : List Entry) (i : ℕ), l.length - i = n →
      (∀ j, 0 < j → j < l.length → (j - 1) / 2 ≠ i →
        (nthE l ((j - 1) / 2)).2 ≤ (nthE l j).2) →
      (0 < i → ∀ c, c < l.length → (c - 1) / 2 = i →
        (nthE l ((i - 1) / 2)).2 ≤ (nthE l c).2) →
      IsMinHeap (bubbleDown l i) ∧ (bubbleDown l i).Perm l := by
  intro n
  induction n using Nat.strong_induction_on with
  | _ n ih =>
    intro l i hn hrest hgrand
    rw [bubbleDown]
    by_cases hs : downTarget l i ≠ i
    · rw [dif_pos hs]
      obtain ⟨his, hsl, hlt, hps⟩ := downTarget_ne l i hs
      set s := downTarget l i with hsdef
      have hil : i < l.length := by omega
      have hfi : nthE (swapL l i s) i = nthE l s := nthE_swapL_fst l i s hil hsl
      have hfs : nthE (swapL l i s) s = nthE l i := nthE_swapL_snd l i s hil hsl
      have hfo : ∀ k, k ≠ i → k ≠ s → nthE (swapL l i s) k = nthE l k :=
        fun k h1 h2 => nthE_swapL_other l i s k h1 h2
      have hmeas : (swapL l i s).length - s < n := by rw [length_swapL]; omega
      have hmain := ih ((swapL l i s).length - s) hmeas (swapL l i s) s rfl
        ?hrest2 ?hgrand2
      exact ⟨hmain.1, hmain.2.trans (perm_swapL l i s hil hsl)⟩
      case hrest2 =>
        intro j hj1 hj2 hjs
        rw [length_swapL] at hj2
        by_cases hji : j = s
        · subst hji
          rw [hps, hfi, hfs]
          exact hlt.le
        · by_cases hjii : j = i
          · subst hjii
            have hq : (j - 1) / 2 ≠ j := by omega
            have hq2 : (j - 1) / 2 ≠ s := by omega
            rw [hfo _ hq hq2, hfi]
            exact hgrand hj1 s hsl hps
          · rw [hfo j hjii hji]
            by_cases hq1 : (j - 1) / 2 = i
            · rw [hq1, hfi]
              exact downTarget_le_children l i j hj2 hq1 hj1
            · rw [hfo _ hq1 hjs]
              exact hrest j hj1 hj2 hq1
      case hgrand2 =>
        intro _hs0 c hc hcs
        rw [length_swapL] at hc
        have hci : c ≠ i := by omega
        have hcs2 : c ≠ s := by omega
        rw [hps, hfi, hfo c hci hcs2]
        have hc0 : 0 < c := by omega
        have hr := hrest c hc0 hc (by omega)
        rw [hcs] at hr
        exact hr
    · rw [dif_neg hs]
      push_neg at hs
      refine ⟨fun j hj1 hj2 => ?_, List.Perm.refl l⟩
      by_cases hq : (j - 1) / 2 = i
      · rw [hq]
        have hd := downTarget_le_children l i j hj2 hq hj1
        rw [hs] at hd
        exact hd
      · exact hrest j hj1 hj2 hq

lemma root_min (l : List Entry) (hheap : IsMinHeap l) :
    ∀ j, j < l.length → (nthE l 0).2 ≤ (nthE l j).2 := by
  intro j
  induction j using Nat.strong_induction_on with
  | _ j ih =>
    intro hj
    cases Nat.eq_zero_or_pos j with
    | inl h =>
      subst h
      exact le_rfl
    | inr h =>
      have hp : (j - 1) / 2 < j := by omega
      exact (ih ((j - 1) / 2) hp (by omega)).trans (hheap j h hj)

lemma mem_nthE (l : List Entry) (y : Entry) (hy : y ∈ l) :
    ∃ j, j < l.length ∧ nthE l j = y := by
  obtain ⟨n, hn, he⟩ := List.mem_iff_getElem.mp hy
  exact ⟨n, hn, by rw [nthE_eq_getElem l n hn, he]⟩

lemma heapPush_spec (l : List Entry) (x : Entry) (hheap : IsMinHeap l) :
    IsMinHeap (heapPush l x) ∧ (heapPush l x).Perm (x :: l) := by
  rw [heapPush]
  have hlen : l.length < (l ++ [x]).length := by simp
  have h := bubbleUp_spec l.length (l ++ [x]) hlen ?hr ?hg
  exact ⟨h.1, h.2.trans (List.perm_append_singleton x l)⟩
  case hr =>
    intro j hj1 hj2 hji
    have hj3 : j < l.length := by
      simp at hj2
      omega
    have hp3 : (j - 1) / 2 < l.length := by omega
    rw [nthE_append_left _ _ _ hj3, nthE_append_left _ _ _ hp3]
    exact hheap j hj1 hj3
  case hg =>
    intro h0 c hc hcp
    simp at hc
    exact absurd hcp (by omega)

lemma nthE_dropLast (l : List Entry) (j : ℕ) (h : j < l.length - 1) :
    nthE (l.dropLast) j = nthE l j := by
  rw [nthE, nthE, List.getD_eq_getElem?_getD, List.getD_eq_getElem?_getD,
    List.getElem?_dropLast, if_pos h]

lemma heapPop_spec (l : List Entry) (hheap : IsMinHeap l) (hne : l ≠ []) :
    (heapPop l).1 = some (nthE l 0) ∧
    List.Perm (nthE l 0 :: (heapPop l).2) l ∧
    IsMinHeap (heapPop l).2 ∧
    (∀ y ∈ l, (nthE l 0).2 ≤ y.2) := by
  have hmin : ∀ y ∈ l, (nthE l 0).2 ≤ y.2 := by
    intro y hy
    obtain ⟨j, hj, hje⟩ := mem_nthE l y hy
    rw [← hje]
    exact root_min l hheap j hj
  cases l with
  | nil => exact absurd rfl hne
  | cons x l2 =>
    cases l2 with
    | nil =>
      refine ⟨rfl, List.Perm.refl _, ?_, hmin⟩
      show IsMinHeap ([] : List Entry)
      intro j hj1 hj2
      simp at hj2
    | cons y rest =>
      -- the popped array: last element moved to the root
      obtain ⟨a, ha⟩ : ∃ a, (y :: rest).getLast? = some a := by
        cases hgl : (y :: rest).getLast? with
        | none => exact absurd (List.getLast?_eq_none_iff.mp hgl) (by simp)
        | some a => exact ⟨a, rfl⟩
      have hgval : ((x :: y :: rest).getLast?).getD dummyE = a := by
        rw [List.getLast?_cons_cons, ha]
        rfl
      have hmdef : ((x :: y :: rest).dropLast).set 0
          (((x :: y :: rest).getLast?).getD dummyE) =
          a :: (y :: rest).dropLast := by
        rw [hgval]
        rfl
      have hDlen : ((y :: rest).dropLast).length = rest.length := by simp
      have hmlen : (a :: (y :: rest).dropLast).length = rest.length + 1 := by
        simp [hDlen]
      have hpop2 : (heapPop (x :: y :: rest)).2 =
          bubbleDown (a :: (y :: rest).dropLast) 0 := by
        show bubbleDown (((x :: y :: rest).dropLast).set 0
          (((x :: y :: rest).getLast?).getD dummyE)) 0 = _
        rw [hmdef]
      have hmnth : ∀ k, 0 < k → k < rest.length + 1 →
          nthE (a :: (y :: rest).dropLast) k = nthE (x :: y :: rest) k := by
        intro k hk1 hk2
        cases k with
        | zero => omega
        | succ k2 =>
          show nthE ((y :: rest).dropLast) k2 = nthE (y :: rest) k2
          exact nthE_dropLast (y :: rest) k2 (by simp; omega)
      have hbd := bubbleDown_spec (rest.length + 1) (a :: (y :: rest).dropLast)
        0 (by rw [hmlen]; omega) ?hr ?hg
      refine ⟨rfl, ?_, by rw [hpop2]; exact hbd.1, hmin⟩
      · rw [hpop2]
        have hp1 : List.Perm (nthE (x :: y :: rest) 0 ::
            bubbleDown (a :: (y :: rest).dropLast) 0)
            (x :: a :: (y :: rest).dropLast) := hbd.2.cons _
        refine hp1.trans (List.Perm.cons x ?_)
        have hDg : (y :: rest).dropLast ++ [a] = y :: rest :=
          List.dropLast_append_getLast? a ha
        have hp2 : List.Perm ((y :: rest).dropLast ++ [a])
            (a :: (y :: rest).dropLast) := List.perm_append_singleton _ _
        rw [hDg] at hp2
        exact hp2.symm
      case hr =>
        intro j hj1 hj2 hjp
        rw [hmlen] at hj2
        have hj3 : (j - 1) / 2 < rest.length + 1 := by omega
        rw [hmnth j hj1 hj2, hmnth _ (by omega) hj3]
        exact hheap j hj1 (by simp; omega)
      case hg =>
        intro h0
        omega

/-- The loop invariant of `getTopWordsHeap`: after processing the
multiset `P` of table entries, the heap keeps `min K |P|` of them as a
min-heap, and every processed entry left out (the complement `C`) has a
count no greater than every kept one. -/
def HeapInv (K : ℕ) (P : Multiset Entry) (h : List Entry) : Prop :=
  IsMinHeap h ∧ h.length = min K (Multiset.card P) ∧
    ∃ C : Multiset Entry, ((↑h : Multiset Entry) + C = P) ∧
      ∀ x ∈ C, ∀ y ∈ h, x.2 ≤ y.2

lemma heapStep_inv (K : ℕ) (P : Multiset Entry) (h : List Entry) (e : Entry)
    (hinv : HeapInv K P h) : HeapInv K (e ::ₘ P) (heapStep K h e) := by
  obtain ⟨hheap, hlen, C, hC, hdom⟩ := hinv
  have hpush := heapPush_spec h e hheap
  have hplen : (heapPush h e).length = h.length + 1 := by
    have hl := hpush.2.length_eq
    simpa using hl
  have hm2 : ((heapPush h e : List Entry) : Multiset Entry) = e ::ₘ ↑h :=
    Multiset.coe_eq_coe.mpr hpush.2
  rw [heapStep]
  by_cases hKlt : K < (heapPush h e).length
  · rw [if_pos hKlt]
    have hne : heapPush h e ≠ [] := by
      intro hnil
      rw [hnil] at hplen
      simp at hplen
    have hpop := heapPop_spec (heapPush h e) hpush.1 hne
    set t := nthE (heapPush h e) 0 with ht
    have hperm1 : List.Perm (t :: (heapPop (heapPush h e)).2) (heapPush h e) :=
      hpop.2.1
    have hl2 : (heapPop (heapPush h e)).2.length + 1 = (heapPush h e).length := by
      have hq := hperm1.length_eq
      simpa using hq
    have hm1 : (t ::ₘ (↑(heapPop (heapPush h e)).2 : Multiset Entry)) =
        ↑(heapPush h e) := Multiset.coe_eq_coe.mpr hperm1
    refine ⟨hpop.2.2.1, ?_, t ::ₘ C, ?_, ?_⟩
    · rw [Multiset.card_cons]
      omega
    · rw [Multiset.add_cons, ← Multiset.cons_add, hm1, hm2,
        Multiset.cons_add, hC]
    · intro x hx y hy
      have hy_push : y ∈ heapPush h e :=
        hperm1.mem_iff.mp (List.mem_cons_of_mem t hy)
      rcases Multiset.mem_cons.mp hx with rfl | hxC
      · exact hpop.2.2.2 y hy_push
      · by_cases hth : t ∈ h
        · exact (hdom x hxC t hth).trans (hpop.2.2.2 y hy_push)
        · have hte : t = e := by
            have hmem : t ∈ e :: h := hpush.2.mem_iff.mp
              (hperm1.mem_iff.mp (List.mem_cons_self _ _))
            rcases List.mem_cons.mp hmem with h1 | h1
            · exact h1
            · exact absurd h1 hth
          have hpop_h : (↑(heapPop (heapPush h e)).2 : Multiset Entry) = ↑h := by
            have hq := hm1
            rw [hm2, hte] at hq
            exact (Multiset.cons_inj_right e).mp hq
          have hy_h : y ∈ h := by
            have : y ∈ (↑h : Multiset Entry) := by
              rw [← hpop_h]
              exact Multiset.mem_coe.mpr hy
            exact Multiset.mem_coe.mp this
          exact hdom x hxC y hy_h
  · rw [if_neg hKlt]
    push_neg at hKlt
    have hC0 : C = 0 := by
      have hcards : h.length + Multiset.card C = Multiset.card P := by
        have hq := congrArg Multiset.card hC
        simpa using hq
      have hcz : Multiset.card C = 0 := by omega
      exact Multiset.card_eq_zero.mp hcz
    refine ⟨hpush.1, ?_, C, ?_, ?_⟩
    · rw [Multiset.card_cons]
      omega
    · rw [hm2, Multiset.cons_add, hC]
    · intro x hx
      rw [hC0] at hx
      exact absurd hx (Multiset.not_mem_zero x)

lemma heapInv_foldl (K : ℕ) :
    ∀ (t : List Entry) (P : Multiset Entry) (h : List Entry),
      HeapInv K P h → HeapInv K (P + ↑t) (t.foldl (heapStep K) h) := by
  intro t
  induction t with
  | nil => intro P h hi; simpa using hi
  | cons e ts ih =>
    intro P h hi
    have h2 := ih (e ::ₘ P) _ (heapStep_inv K P h e hi)
    have heq : P + (↑(e :: ts) : Multiset Entry) = (e ::ₘ P) + ↑ts := by
      rw [← Multiset.cons_coe, Multiset.add_cons, Multiset.cons_add]
    rw [heq]
    exact h2

lemma getTopWordsHeap_spec_aux (table : List Entry) (K : ℤ) (hK : 0 < K) :
    (getTopWordsHeap table K).length = min K.toNat table.length ∧
    List.Sorted cntGE (getTopWordsHeap table K) ∧
    ∃ C : Multiset Entry,
      ((↑(getTopWordsHeap table K) : Multiset Entry) + C = ↑table) ∧
      ∀ x ∈ C, ∀ y ∈ getTopWordsHeap table K, x.2 ≤ y.2 := by
  rw [getTopWordsHeap, if_neg (by omega)]
  have h0 : HeapInv K.toNat 0 [] :=
    ⟨fun j hj1 hj2 => by simp at hj2, by simp, 0, by simp,
      fun x hx => absurd hx (Multiset.not_mem_zero x)⟩
  have hinv := heapInv_foldl K.toNat table 0 [] h0
  rw [zero_add] at hinv
  obtain ⟨hheap, hlen, C, hC, hdom⟩ := hinv
  have hsperm : List.Perm (sortDesc (table.foldl (heapStep K.toNat) []))
      (table.foldl (heapStep K.toNat) []) :=
    List.perm_insertionSort cntGE _
  refine ⟨?_, List.sorted_insertionSort cntGE _, C, ?_, ?_⟩
  · rw [hsperm.length_eq, hlen]
    simp
  · rw [Multiset.coe_eq_coe.mpr hsperm]
    exact hC
  · intro x hx y hy
    exact hdom x hx y (hsperm.mem_iff.mp hy)

/-- C5: `getTopWordsHeap(K)` returns the empty sequence when `K ≤ 0` or
the table is empty, and otherwise exactly `min(K, |table|)` entries,
sorted descending by count, such that every returned entry's count is at
least the count of every table entry not returned (the complement `C`). -/
theorem getTopWordsHeap_topK (table : List Entry) (K : ℤ) :
    (K ≤ 0 → getTopWordsHeap table K = []) ∧
    (table = [] → getTopWordsHeap table K = []) ∧
    (0 < K →
      (getTopWordsHeap table K).length = min K.toNat table.length ∧
      List.Sorted cntGE (getTopWordsHeap table K) ∧
      ∃ C : Multiset Entry,
        ((↑(getTopWordsHeap table K) : Multiset Entry) + C = ↑table) ∧
        ∀ x ∈ C, ∀ y ∈ getTopWordsHeap table K, x.2 ≤ y.2) := by
  refine ⟨?_, ?_, getTopWordsHeap_spec_aux table K⟩
  · intro hK
    rw [getTopWordsHeap, if_pos hK]
  · intro htab
    subst htab
    rw [getTopWordsHeap]
    by_cases hK : K ≤ 0
    · rw [if_pos hK]
    · rw [if_neg hK]
      rfl

theorem getTopWordsHeap_topK_witness :
    ((0 : ℤ) < 2) ∧
    (getTopWordsHeap [("aaa", 3), ("bbb", 1), ("ccc", 5)] 2).length =
      min (Int.toNat 2) 3 ∧
    List.Sorted cntGE (getTopWordsHeap [("aaa", 3), ("bbb", 1), ("ccc", 5)] 2) ∧
    ∃ C : Multiset Entry,
      ((↑(getTopWordsHeap [("aaa", 3), ("bbb", 1), ("ccc", 5)] 2) :
          Multiset Entry) + C = ↑([("aaa", 3), ("bbb", 1), ("ccc", 5)] :
            List Entry)) ∧
      ∀ x ∈ C, ∀ y ∈ getTopWordsHeap [("aaa", 3), ("bbb", 1), ("ccc", 5)] 2,
        x.2 ≤ y.2 :=
  ⟨by decide,
    (getTopWordsHeap_topK [("aaa", 3), ("bbb", 1), ("ccc", 5)] 2).2.2
      (by decide)⟩

lemma multiset_exists_max :
    ∀ N : Multiset ℕ, N ≠ 0 → ∃ M ∈ N, ∀ y ∈ N, y ≤ M := by
  intro N
  induction N using Multiset.induction_on with
  | empty => intro h; exact absurd rfl h
  | cons a s ih =>
    intro _
    by_cases hs : s = 0
    · subst hs
      refine ⟨a, Multiset.mem_cons_self a 0, fun y hy => ?_⟩
      rcases Multiset.mem_cons.mp hy with rfl | hy2
      · exact le_rfl
      · exact absurd hy2 (Multiset.not_mem_zero y)
    · obtain ⟨M, hM, hMax⟩ := ih hs
      by_cases haM : a ≤ M
      · refine ⟨M, Multiset.mem_cons_of_mem hM, fun y hy => ?_⟩
        rcases Multiset.mem_cons.mp hy with rfl | hy2
        · exact haM
        · exact hMax y hy2
      · push_neg at haM
        refine ⟨a, Multiset.mem_cons_self a s, fun y hy => ?_⟩
        rcases Multiset.mem_cons.mp hy with rfl | hy2
        · exact le_rfl
        · exact (hMax y hy2).trans haM.le

/-- Two sub-multisets of `A` of equal size that both dominate their
complements have the same elements (here stated for the count multisets,
`A` a multiset of naturals). -/
lemma dom_sub_counts_unique :
    ∀ (n : ℕ) (A B₁ B₂ D₁ D₂ : Multiset ℕ),
      Multiset.card B₁ = n → Multiset.card B₂ = n →
      B₁ + D₁ = A → B₂ + D₂ = A →
      (∀ x ∈ D₁, ∀ y ∈ B₁, x ≤ y) → (∀ x ∈ D₂, ∀ y ∈ B₂, x ≤ y) →
      B₁ = B₂ := by
  intro n
  induction n with
  | zero =>
    intro A B₁ B₂ D₁ D₂ h1 h2 _ _ _ _
    rw [Multiset.card_eq_zero.mp h1, Multiset.card_eq_zero.mp h2]
  | succ m ih =>
    intro A B₁ B₂ D₁ D₂ h1 h2 hA1 hA2 hd1 hd2
    have hB1ne : B₁ ≠ 0 := by
      intro hz
      rw [hz] at h1
      simp at h1
    have hB2ne : B₂ ≠ 0 := by
      intro hz
      rw [hz] at h2
      simp at h2
    have hAne : A ≠ 0 := by
      intro hz
      have hc := congrArg Multiset.card hA1
      rw [hz, Multiset.card_add, Multiset.card_zero] at hc
      omega
    obtain ⟨M, hMA, hMax⟩ := multiset_exists_max A hAne
    have hmem : ∀ (B D : Multiset ℕ), B ≠ 0 → B + D = A →
        (∀ x ∈ D, ∀ y ∈ B, x ≤ y) → M ∈ B := by
      intro B D hBne hBD hdom
      rcases Multiset.mem_add.mp (hBD ▸ hMA) with h | h
      · exact h
      · obtain ⟨b, hb⟩ := Multiset.exists_mem_of_ne_zero hBne
        have h1b : M ≤ b := hdom M h b hb
        have h2b : b ≤ M := hMax b
          (by rw [← hBD]; exact Multiset.mem_add.mpr (Or.inl hb))
        rwa [← le_antisymm h2b h1b]
    have hMB1 : M ∈ B₁ := hmem B₁ D₁ hB1ne hA1 hd1
    have hMB2 : M ∈ B₂ := hmem B₂ D₂ hB2ne hA2 hd2
    have hA1e : B₁.erase M + D₁ = A.erase M := by
      rw [← hA1, Multiset.erase_add_left_pos _ hMB1]
    have hA2e : B₂.erase M + D₂ = A.erase M := by
      rw [← hA2, Multiset.erase_add_left_pos _ hMB2]
    have heq := ih (A.erase M) (B₁.erase M) (B₂.erase M) D₁ D₂
      (by rw [Multiset.card_erase_of_mem hMB1, h1]; rfl)
      (by rw [Multiset.card_erase_of_mem hMB2, h2]; rfl)
      hA1e hA2e
      (fun x hx y hy => hd1 x hx y (Multiset.mem_of_mem_erase hy))
      (fun x hx y hy => hd2 x hx y (Multiset.mem_of_mem_erase hy))
    rw [← Multiset.cons_erase hMB1, ← Multiset.cons_erase hMB2, heq]

/-- When all counts in `A` are distinct, a sub-multiset of `A` is
determined by its count multiset. -/
lemma dom_sub_entries_unique :
    ∀ (n : ℕ) (A S₁ S₂ C₁ C₂ : Multiset Entry),
      Multiset.card S₁ = n →
      S₁ + C₁ = A → S₂ + C₂ = A →
      (A.map (fun e => e.2)).Nodup →
      S₁.map (fun e => e.2) = S₂.map (fun e => e.2) →
      S₁ = S₂ := by
  intro n
  induction n with
  | zero =>
    intro A S₁ S₂ C₁ C₂ h1 _ _ _ hmap
    have hz1 : S₁ = 0 := Multiset.card_eq_zero.mp h1
    rw [hz1] at hmap ⊢
    have hz2 : S₂.map (fun e => e.2) = 0 := by
      rw [← hmap]
      simp
    rw [Multiset.map_eq_zero] at hz2
    rw [hz2]
  | succ m ih =>
    intro A S₁ S₂ C₁ C₂ h1 hA1 hA2 hnd hmap
    have hS1ne : S₁ ≠ 0 := by
      intro hz
      rw [hz] at h1
      simp at h1
    obtain ⟨x, hx⟩ := Multiset.exists_mem_of_ne_zero hS1ne
    have hxA : x ∈ A := by
      rw [← hA1]
      exact Multiset.mem_add.mpr (Or.inl hx)
    have hx2 : x.2 ∈ S₂.map (fun e => e.2) := by
      rw [← hmap]
      exact Multiset.mem_map_of_mem _ hx
    obtain ⟨y, hyS2, hyx⟩ := Multiset.mem_map.mp hx2
    have hyA : y ∈ A := by
      rw [← hA2]
      exact Multiset.mem_add.mpr (Or.inl hyS2)
    have hxy : y = x := by
      by_contra hne
      have hyErase : y ∈ A.erase x := (Multiset.mem_erase_of_ne hne).mpr hyA
      have hsplit : A.map (fun e => e.2) =
          x.2 ::ₘ (A.erase x).map (fun e => e.2) := by
        rw [← Multiset.map_cons, Multiset.cons_erase hxA]
      rw [hsplit, Multiset.nodup_cons] at hnd
      exact hnd.1 (by rw [← hyx]; exact Multiset.mem_map_of_mem _ hyErase)
    rw [hxy] at hyS2
    have hmap1 : S₁.map (fun e => e.2) =
        x.2 ::ₘ (S₁.erase x).map (fun e => e.2) := by
      rw [← Multiset.map_cons, Multiset.cons_erase hx]
    have hmap2 : S₂.map (fun e => e.2) =
        x.2 ::ₘ (S₂.erase x).map (fun e => e.2) := by
      rw [← Multiset.map_cons, Multiset.cons_erase hyS2]
    have hmape : (S₁.erase x).map (fun e => e.2) =
        (S₂.erase x).map (fun e => e.2) := by
      have hq := hmap
      rw [hmap1, hmap2] at hq
      exact (Multiset.cons_inj_right _).mp hq
    have hndE : ((A.erase x).map (fun e => e.2)).Nodup := by
      have hsplit : A.map (fun e => e.2) =
          x.2 ::ₘ (A.erase x).map (fun e => e.2) := by
        rw [← Multiset.map_cons, Multiset.cons_erase hxA]
      rw [hsplit, Multiset.nodup_cons] at hnd
      exact hnd.2
    have heq := ih (A.erase x) (S₁.erase x) (S₂.erase x) C₁ C₂
      (by rw [Multiset.card_erase_of_mem hx, h1]; rfl)
      (by rw [← hA1, Multiset.erase_add_left_pos _ hx])
      (by rw [← hA2, Multiset.erase_add_left_pos _ hyS2])
      hndE hmape
    rw [← Multiset.cons_erase hx, ← Multiset.cons_erase hyS2, heq]

/-- Strict descending order on counts. -/
def cntGT (a b : Entry) : Prop := b.2 < a.2

instance : IsAntisymm Entry cntGT :=
  ⟨fun _ _ h1 h2 => absurd h2 (lt_asymm h1)⟩

lemma length_sortDesc (l : List Entry) : (sortDesc l).length = l.length :=
  (List.perm_insertionSort cntGE l).length_eq

lemma sorted_strict_of_nodup (l : List Entry) (hs : List.Sorted cntGE l)
    (hn : (l.map (fun e => e.2)).Nodup) : List.Pairwise cntGT l := by
  have hne : l.Pairwise (fun a b => a.2 ≠ b.2) := List.pairwise_map.mp hn
  exact (hs.and hne).imp fun {a b} h => lt_of_le_of_ne h.1 (Ne.symm h.2)

/-- The sorted prefix of length `m` dominates the corresponding suffix
and together they re-assemble the table. -/
lemma sortDesc_take_dom (table : List Entry) (m : ℕ) :
    ((↑((sortDesc table).take m) : Multiset Entry) +
      ↑((sortDesc table).drop m) = ↑table) ∧
    ∀ x ∈ (sortDesc table).drop m, ∀ y ∈ (sortDesc table).take m,
      x.2 ≤ y.2 := by
  constructor
  · have h1 : (↑((sortDesc table).take m) : Multiset Entry) +
        ↑((sortDesc table).drop m) =
        ↑((sortDesc table).take m ++ (sortDesc table).drop m) :=
      Multiset.coe_add _ _
    rw [h1, List.take_append_drop]
    exact Multiset.coe_eq_coe.mpr (List.perm_insertionSort cntGE table)
  · intro x hx y hy
    have hs : List.Pairwise cntGE
        ((sortDesc table).take m ++ (sortDesc table).drop m) := by
      rw [List.take_append_drop]
      exact List.sorted_insertionSort cntGE table
    exact (List.pairwise_append.mp hs).2.2 y hy x hx

/-- C10 is false as universally stated for negative K: on the empty
table with K = -1 the two selectors agree (both return the empty list),
so "for K < 0 the two differ" fails. -/
theorem topk_refinement_counterexample :
    ((-1 : ℤ) < 0) ∧ getTopWordsHeap [] (-1) = getTopWords [] (-1) :=
  ⟨by decide, rfl⟩

/-- C10 (amended): for K ≥ 0 the heap-based and the full-sort top-K
selectors return the same multiset of counts, and identical sequences
when the table's counts are pairwise distinct; for K < 0
`getTopWordsHeap` returns the empty sequence while `getTopWords`
(via the negative slice) is nonempty exactly when the table has more
than -K entries, so the two differ exactly then. -/
theorem getTopWordsHeap_refines_getTopWords (table : List Entry) (K : ℤ) :
    (0 ≤ K →
      (↑((getTopWordsHeap table K).map (fun e => e.2)) : Multiset ℕ) =
        ↑((getTopWords table K).map (fun e => e.2))) ∧
    (0 ≤ K → (table.map (fun e => e.2)).Nodup →
      getTopWordsHeap table K = getTopWords table K) ∧
    (K < 0 → getTopWordsHeap table K = [] ∧
      (getTopWords table K ≠ [] ↔ -K < (table.length : ℤ))) := by
  by_cases hK0 : K = 0
  · subst hK0
    have hheap : getTopWordsHeap table 0 = [] := by
      rw [getTopWordsHeap, if_pos le_rfl]
    have hsort : getTopWords table 0 = [] := by
      rw [getTopWords, jsSlice, if_pos le_rfl]
      simp
    exact ⟨fun _ => by rw [hheap, hsort], fun _ _ => by rw [hheap, hsort],
      fun hneg => absurd hneg (by omega)⟩
  by_cases hKpos : 0 < K
  · obtain ⟨hlen, hsorted, C, hC, hdom⟩ := getTopWordsHeap_spec_aux table K hKpos
    have hgw : getTopWords table K = (sortDesc table).take K.toNat := by
      rw [getTopWords, jsSlice, if_pos (le_of_lt hKpos)]
    have htd := sortDesc_take_dom table K.toNat
    have hlen2 : ((sortDesc table).take K.toNat).length =
        min K.toNat table.length := by
      rw [List.length_take, length_sortDesc]
    have hcounts :
        ((↑(getTopWordsHeap table K) : Multiset Entry)).map (fun e => e.2) =
        ((↑((sortDesc table).take K.toNat) : Multiset Entry)).map
          (fun e => e.2) := by
      refine dom_sub_counts_unique (min K.toNat table.length)
        ((↑table : Multiset Entry).map (fun e => e.2)) _ _
        (C.map (fun e => e.2))
        (((↑((sortDesc table).drop K.toNat) : Multiset Entry)).map
          (fun e => e.2))
        ?_ ?_ ?_ ?_ ?_ ?_
      · rw [Multiset.card_map, Multiset.coe_card]
        exact hlen
      · rw [Multiset.card_map, Multiset.coe_card]
        exact hlen2
      · rw [← Multiset.map_add, hC]
      · rw [← Multiset.map_add, htd.1]
      · intro x hx y hy
        obtain ⟨x0, hx0, rfl⟩ := Multiset.mem_map.mp hx
        obtain ⟨y0, hy0, rfl⟩ := Multiset.mem_map.mp hy
        exact hdom x0 hx0 y0 (Multiset.mem_coe.mp hy0)
      · intro x hx y hy
        obtain ⟨x0, hx0, rfl⟩ := Multiset.mem_map.mp hx
        obtain ⟨y0, hy0, rfl⟩ := Multiset.mem_map.mp hy
        exact htd.2 x0 (Multiset.mem_coe.mp hx0) y0 (Multiset.mem_coe.mp hy0)
    refine ⟨fun _ => ?_, fun _ hnd => ?_, fun hneg => absurd hneg (by omega)⟩
    · rw [hgw]
      have hq := hcounts
      rw [Multiset.map_coe, Multiset.map_coe] at hq
      exact hq
    · rw [hgw]
      have hndA : (((↑table : Multiset Entry)).map (fun e => e.2)).Nodup := by
        rw [Multiset.map_coe]
        exact Multiset.coe_nodup.mpr hnd
      have hentries : (↑(getTopWordsHeap table K) : Multiset Entry) =
          ↑((sortDesc table).take K.toNat) :=
        dom_sub_entries_unique (min K.toNat table.length)
          (↑table) _ _ C (↑((sortDesc table).drop K.toNat))
          (by rw [Multiset.coe_card]; exact hlen)
          hC htd.1 hndA hcounts
      have hperm : List.Perm (getTopWordsHeap table K)
          ((sortDesc table).take K.toNat) := Multiset.coe_eq_coe.mp hentries
      have hnd1 : ((getTopWordsHeap table K).map (fun e => e.2)).Nodup := by
        have hle : ((↑(getTopWordsHeap table K) : Multiset Entry)).map
            (fun e => e.2) ≤ ((↑table : Multiset Entry)).map (fun e => e.2) :=
          Multiset.map_le_map (hC ▸ Multiset.le_add_right _ _)
        have hsub := Multiset.nodup_of_le hle hndA
        rw [Multiset.map_coe] at hsub
        exact Multiset.coe_nodup.mp hsub
      have hnd2 : (((sortDesc table).take K.toNat).map (fun e => e.2)).Nodup := by
        have hq := hcounts
        rw [Multiset.map_coe, Multiset.map_coe] at hq
        have hsub : ((↑((getTopWordsHeap table K).map (fun e => e.2))) :
            Multiset ℕ).Nodup := Multiset.coe_nodup.mpr hnd1
        rw [hq] at hsub
        exact Multiset.coe_nodup.mp hsub
      have hsorted2 : List.Sorted cntGE ((sortDesc table).take K.toNat) :=
        List.Pairwise.sublist (List.take_sublist _ _)
          (List.sorted_insertionSort cntGE table)
      exact List.eq_of_perm_of_sorted hperm
        (sorted_strict_of_nodup _ hsorted hnd1)
        (sorted_strict_of_nodup _ hsorted2 hnd2)
  · have hKneg : K < 0 := by omega
    refine ⟨fun h0 => absurd h0 (by omega), fun h0 _ => absurd h0 (by omega),
      fun _ => ⟨?_, ?_⟩⟩
    · rw [getTopWordsHeap, if_pos (by omega)]
    · rw [getTopWords, jsSlice, if_neg (by omega), length_sortDesc]
      constructor
      · intro hne
        by_contra hlt
        apply hne
        have hz : ((table.length : ℤ) + K).toNat = 0 := by omega
        rw [hz]
        exact List.take_zero _
      · intro hlt htake
        have hn0 : ((table.length : ℤ) + K).toNat ≠ 0 := by omega
        have htne : sortDesc table ≠ [] := by
          intro hnil
          have hl := length_sortDesc table
          rw [hnil] at hl
          simp at hl
          omega
        rcases List.take_eq_nil_iff.mp htake with h | h
        · exact hn0 h
        · exact htne h

theorem getTopWordsHeap_refines_getTopWords_witness :
    ((0 : ℤ) ≤ 1) ∧
    ((([("aaa", 3), ("bbb", 7)] : List Entry).map (fun e => e.2)).Nodup) ∧
    getTopWordsHeap [("aaa", 3), ("bbb", 7)] 1 =
      getTopWords [("aaa", 3), ("bbb", 7)] 1 :=
  ⟨by decide, by decide,
    (getTopWordsHeap_refines_getTopWords [("aaa", 3), ("bbb", 7)] 1).2.1
      (by decide) (by decide)⟩

end BookBackend
